import Mathlib

set_option maxHeartbeats 1000000
set_option linter.unusedVariables false

/- Verification of the directory mirroring core of `src/FTPDataExchange.py`.

The Python class `FTPDataExchange` walks a remote or local directory tree
breadth first and copies files between the two sides.  We embed the tree
walkers and the two mirror engines as pure Lean functions over an explicit
tree model of a filesystem, with the collaborator calls (`os.makedirs`,
`ftp.retrbinary`, `ftp.mkd`, `ftp.storbinary`, `ftp.cwd`, the session
`connect`/`close`) recorded in an explicit trace of actions. -/

namespace FTPDE

/- ---------------------------------------------------------------- -/
/- String primitives used by the Python code (posix path semantics) -/
/- ---------------------------------------------------------------- -/

/-- Test whether the first character of a string is `/`
(embedding of `s.startswith('/')` for a one character pattern). -/
def headIsSlash (s : String) : Bool :=
  match s.data with
  | [] => false
  | c :: _ => c = '/'

/-- Test whether the last character of a string is `/`
(embedding of `s.endswith('/')` for a one character pattern). -/
def lastIsSlash (s : String) : Bool :=
  match s.data.getLast? with
  | none => false
  | some c => c = '/'

/-- Test whether the first character of a string is `.`
(embedding of `name.startswith('.')`). -/
def startsWithDot (s : String) : Bool :=
  match s.data with
  | [] => false
  | c :: _ => c = '.'

/-- Embedding of `posixpath.join` (`os.path.join` as imported by the source
as `pjoin`) restricted to two components: an absolute second component
discards the first, otherwise the components are concatenated with a
separating `/` unless one is already present. -/
def pjoin (a b : String) : String :=
  if headIsSlash b then b
  else if a = "" ∨ lastIsSlash a then a ++ b
  else a ++ "/" ++ b

/-- Split a character list at every occurrence of the separator, keeping
empty segments, exactly like Python `str.split` with a one character
separator: `splitChar '.' "a..b" = ["a", "", "b"]`. -/
def splitChar (sep : Char) : List Char → List (List Char)
  | [] => [[]]
  | c :: rest =>
    if c = sep then [] :: splitChar sep rest
    else
      match splitChar sep rest with
      | [] => [[c]]
      | s :: ss => (c :: s) :: ss

/-- Python `s.split(sep)` for a one character separator, as strings. -/
def strSplit (sep : Char) (s : String) : List String :=
  (splitChar sep s.data).map String.mk

/-- Embedding of `os.path.basename`: the substring after the final `/`. -/
def basename (p : String) : String :=
  (strSplit '/' p).getLastD ""

/-- Embedding of Python `s.split('.')[-1]`: the substring after the final
`.`, or the whole string when it holds no dot. -/
def lastSplitDot (s : String) : String :=
  String.mk ((splitChar '.' s.data).getLastD [])

/-- List form of Python `str.replace` for a non-empty pattern: replace
every occurrence of `old`, scanning left to right without overlap.  The
fuel argument only makes the recursion structural; one unit is spent per
character position examined, so `s.length` fuel always suffices. -/
def replListF (old new : List Char) : Nat → List Char → List Char
  | _, [] => []
  | 0, s => s
  | fuel + 1, c :: rest =>
    if old.isPrefixOf (c :: rest) ∧ old ≠ [] then
      new ++ replListF old new fuel ((c :: rest).drop old.length)
    else
      c :: replListF old new fuel rest

/-- List form of Python `str.replace` for a non-empty pattern. -/
def replList (old new s : List Char) : List Char :=
  replListF old new s.length s

/-- Embedding of Python `s.replace(old, new)`: global, unanchored,
left-to-right substring replacement.  An empty pattern inserts `new`
around every character, as in Python. -/
def pyReplace (s old new : String) : String :=
  if old = "" then
    String.mk (s.data.foldr (fun c acc => new.data ++ c :: acc) new.data)
  else
    String.mk (replList old.data new.data s.data)

example : pyReplace "/a/b/c" "/a/b" "/tmp/x/b" = "/tmp/x/b/c" := by decide
example : pyReplace "/a/a" "/a" "/t/a" = "/t/a/t/a" := by decide
example : basename "/a/b" = "b" := by decide
example : lastSplitDot "report.txt" = "txt" := by decide
example : lastSplitDot "/L/r/data" = "/L/r/data" := by decide

/- ---------------------------------------------------------------- -/
/- The directory tree model                                          -/
/- ---------------------------------------------------------------- -/

/-- A finite directory tree: the `(name, content)` pairs of the plain files
directly inside the directory, and the `(name, subtree)` pairs of its
subdirectories.  This is the model of one side of the sync: the listing a
directory produces (`ftp.mlsd()` respectively `os.listdir`) is the two
lists of names tagged with their kind. -/
inductive DirTree : Type where
  | node : List (String × String) → List (String × DirTree) → DirTree

/-- The plain files directly inside the root of the tree. -/
def DirTree.filesOf : DirTree → List (String × String)
  | .node files _ => files

/-- The subdirectories directly inside the root of the tree. -/
def DirTree.subdirsOf : DirTree → List (String × DirTree)
  | .node _ subdirs => subdirs

mutual

/-- Number of directories in a tree (the root included). -/
def DirTree.size : DirTree → Nat
  | .node _ subdirs => 1 + sizeL subdirs

/-- Number of directories in a list of named subtrees. -/
def sizeL : List (String × DirTree) → Nat
  | [] => 0
  | p :: rest => p.2.size + sizeL rest

end

theorem DirTree.one_le_size (t : DirTree) : 1 ≤ t.size := by
  cases t with
  | node files subdirs => simp only [DirTree.size]; omega

theorem sizeL_cons (p : String × DirTree) (rest : List (String × DirTree)) :
    sizeL (p :: rest) = p.2.size + sizeL rest := rfl

theorem sizeL_append (a b : List (String × DirTree)) :
    sizeL (a ++ b) = sizeL a + sizeL b := by
  induction a with
  | nil => simp [sizeL]
  | cons p rest ih => simp only [List.cons_append, sizeL_cons, ih]; omega

theorem sizeL_map_pjoin (cur : String) (l : List (String × DirTree)) :
    sizeL (l.map (fun q => (pjoin cur q.1, q.2))) = sizeL l := by
  induction l with
  | nil => simp [sizeL]
  | cons q rest ih => simp only [List.map_cons, sizeL_cons, ih]

theorem sizeL_filter_le (p : String × DirTree → Bool) (l : List (String × DirTree)) :
    sizeL (l.filter p) ≤ sizeL l := by
  induction l with
  | nil => simp [sizeL]
  | cons q rest ih =>
    simp only [List.filter_cons]
    split
    · rw [sizeL_cons, sizeL_cons]; omega
    · rw [sizeL_cons]
      have := q.2.one_le_size
      omega

/- ---------------------------------------------------------------- -/
/- The breadth-first tree walkers                                    -/
/- ---------------------------------------------------------------- -/

/-- The children a walker discovers when it dequeues the directory at path
`p.1` with listing `p.2`: every subdirectory entry whose name passes the
`keep` filter, paired with its joined path, in listing order.  This is the
body of the `for f in filelist` loop of `walk_remote_tree` (line 127-133)
and of the `for d in directory_list` loop of `walk_local_tree`
(line 207-210). -/
def childPairs (keep : String → Bool) (p : String × DirTree) : List (String × DirTree) :=
  match p with
  | (cur, .node _ subdirs) =>
    (subdirs.filter (fun q => keep q.1)).map (fun q => (pjoin cur q.1, q.2))

/-- The `while queue:` loop of the walkers, with an explicit fuel argument
so that the definition is structural: dequeue the front directory, list it,
enqueue and yield its kept subdirectories.  `walkQueue` below instantiates
the fuel with a proven-sufficient bound. -/
def walkAuxF (keep : String → Bool) : Nat → List (String × DirTree) → List (String × DirTree)
  | _, [] => []
  | 0, _ :: _ => []
  | fuel + 1, p :: rest => childPairs keep p ++ walkAuxF keep fuel (rest ++ childPairs keep p)

theorem sizeL_childPairs_lt (keep : String → Bool) (p : String × DirTree) :
    sizeL (childPairs keep p) < p.2.size := by
  obtain ⟨cur, t⟩ := p
  cases t with
  | node files subdirs =>
    simp only [childPairs, DirTree.size]
    have h1 := sizeL_map_pjoin cur (subdirs.filter (fun q => keep q.1))
    have h2 := sizeL_filter_le (fun q => keep q.1) subdirs
    omega

theorem walkAuxF_fuel_eq (keep : String → Bool) :
    ∀ n fuel₁ fuel₂ q, sizeL q ≤ n → sizeL q ≤ fuel₁ → sizeL q ≤ fuel₂ →
      walkAuxF keep fuel₁ q = walkAuxF keep fuel₂ q := by
  intro n
  induction n with
  | zero =>
    intro fuel₁ fuel₂ q hq _ _
    cases q with
    | nil => cases fuel₁ <;> cases fuel₂ <;> rfl
    | cons p rest =>
      exfalso
      have := p.2.one_le_size
      rw [sizeL_cons] at hq
      omega
  | succ n ih =>
    intro fuel₁ fuel₂ q hq h1 h2
    cases q with
    | nil => cases fuel₁ <;> cases fuel₂ <;> rfl
    | cons p rest =>
      have hp := p.2.one_le_size
      have hc := sizeL_childPairs_lt keep p
      have ha := sizeL_append rest (childPairs keep p)
      rw [sizeL_cons] at hq h1 h2
      cases fuel₁ with
      | zero => omega
      | succ f1 =>
        cases fuel₂ with
        | zero => omega
        | succ f2 =>
          simp only [walkAuxF]
          congr 1
          apply ih f1 f2 <;> omega

/-- The sequence of `(path, listing)` pairs the walker loop processes,
starting from the queue `q`. -/
def walkQueue (keep : String → Bool) (q : List (String × DirTree)) : List (String × DirTree) :=
  walkAuxF keep (sizeL q) q

theorem walkQueue_nil (keep : String → Bool) : walkQueue keep [] = [] := rfl

theorem walkQueue_cons (keep : String → Bool) (p : String × DirTree)
    (rest : List (String × DirTree)) :
    walkQueue keep (p :: rest) =
      childPairs keep p ++ walkQueue keep (rest ++ childPairs keep p) := by
  have hp := p.2.one_le_size
  have hc := sizeL_childPairs_lt keep p
  have ha := sizeL_append rest (childPairs keep p)
  have hs : sizeL (p :: rest) = p.2.size + sizeL rest := rfl
  obtain ⟨m, hm⟩ : ∃ m, sizeL (p :: rest) = m + 1 :=
    ⟨sizeL (p :: rest) - 1, by omega⟩
  unfold walkQueue
  rw [hm]
  simp only [walkAuxF]
  congr 1
  exact walkAuxF_fuel_eq keep (sizeL (rest ++ childPairs keep p)) m
    (sizeL (rest ++ childPairs keep p)) (rest ++ childPairs keep p)
    (le_refl _) (by omega) (le_refl _)

/-- The full walk from a root: the root is yielded first, then the queue
loop runs, seeded with the root (lines 117-133 and 196-210 of the
source). -/
def walkTreePairs (keep : String → Bool) (root : String) (t : DirTree) :
    List (String × DirTree) :=
  (root, t) :: walkQueue keep [(root, t)]

/-- The filter of `walk_remote_tree`: skip entries whose name starts with a
dot (line 128-129). -/
def remoteKeep (n : String) : Bool := ¬ startsWithDot n

/-- The (absent) filter of `walk_local_tree`: every subdirectory is kept. -/
def allKeep (_ : String) : Bool := true

/-- Embedding of `walk_remote_tree` (lines 107-133): the breadth-first
sequence of directory paths of the remote tree, hidden entries excluded. -/
def walk_remote_tree (remote_root_directory : String) (t : DirTree) : List String :=
  (walkTreePairs remoteKeep remote_root_directory t).map Prod.fst

/-- Embedding of `walk_local_tree` (lines 186-210) over the tree model
(the behaviour for an absolute root; the working-directory side effects of
the real function are modelled separately below): the breadth-first
sequence of directory paths, with no hidden-name filtering. -/
def walk_local_tree (local_root_directory : String) (t : DirTree) : List String :=
  (walkTreePairs allKeep local_root_directory t).map Prod.fst

/-- A small sample tree used by concrete witnesses. -/
def sampleT : DirTree :=
  .node [("f.txt", "x")]
    [("a", .node [] [("b", .node [] [])]),
     (".git", .node [("g", "y")] []),
     ("c", .node [] [])]

example : walk_remote_tree "/r" sampleT = ["/r", "/r/a", "/r/c", "/r/a/b"] := by decide
example : walk_local_tree "/r" sampleT = ["/r", "/r/a", "/r/.git", "/r/c", "/r/a/b"] := by decide

/- ---------------------------------------------------------------- -/
/- Destination state and collaborator-call traces                    -/
/- ---------------------------------------------------------------- -/

/-- The collaborator calls a mirror or transfer operation can issue.  Each
constructor records one call of the Python code: `os.makedirs`,
`ftp.retrbinary` (remote file name and local target path), `ftp.cwd` on a
remote path, `ftp.mkd`, `ftp.storbinary` (remote directory and file name),
session establishment (`FTP_TLS(...)` + `login`) and session close
(`quit`/`close`, which the source never calls). -/
inductive Action : Type where
  | makedirs : String → Action
  | retr : String → String → Action
  | cwdRemote : String → Action
  | mkd : String → Action
  | stor : String → String → Action
  | sessionOpen : Action
  | sessionClose : Action
deriving DecidableEq, Repr

/-- The local filesystem state the download engine mutates: the set of
directories that exist and the contents of the files that exist. -/
structure LocalFS : Type where
  dirs : List String
  files : List (String × String)
deriving DecidableEq, Repr

/-- Embedding of `os.path.exists`: a path exists when it is a directory or
a file. -/
def LocalFS.pathExists (fs : LocalFS) (p : String) : Prop :=
  p ∈ fs.dirs ∨ ∃ q ∈ fs.files, q.1 = p

instance (fs : LocalFS) (p : String) : Decidable (fs.pathExists p) := by
  unfold LocalFS.pathExists
  infer_instance

/-- The chain of directories `os.makedirs(p)` creates: every cumulative
prefix of `p` at a `/` boundary, innermost last. -/
def chainAux (cur : String) : List String → List String
  | [] => []
  | seg :: rest =>
    let nxt := if cur = "/" then cur ++ seg
               else if cur = "" then seg
               else cur ++ "/" ++ seg
    nxt :: chainAux nxt rest

/-- The chain of directories `os.makedirs(p)` creates, outermost first. -/
def dirChain (p : String) : List String :=
  let segs := (strSplit '/' p).filter (fun s => ¬ s.isEmpty)
  chainAux (if headIsSlash p then "/" else "") segs

example : dirChain "/a/b/c" = ["/a", "/a/b", "/a/b/c"] := by decide
example : dirChain "a/b" = ["a", "a/b"] := by decide

/-- Embedding of `os.makedirs(p, exist_ok=True)`: create every missing
directory along the chain of `p`; directories that already exist are left
alone and never produce an error. -/
def LocalFS.makedirs (fs : LocalFS) (p : String) : LocalFS :=
  { fs with dirs := (dirChain p).foldl (fun ds d => if d ∈ ds then ds else ds ++ [d]) fs.dirs }

/-- Set the content of the file at key `k` in an association list, adding
the entry when absent (the effect of `open(k, 'wb').write(v)`). -/
def setAssoc (l : List (String × String)) (k v : String) : List (String × String) :=
  if ∃ q ∈ l, q.1 = k then l.map (fun q => if q.1 = k then (k, v) else q)
  else l ++ [(k, v)]

/-- Embedding of `open(p, 'wb').write(content)`: create or truncate the
local file at `p` and write `content`. -/
def LocalFS.writeFile (fs : LocalFS) (p content : String) : LocalFS :=
  { fs with files := setAssoc fs.files p content }

/-- The remote filesystem state the upload engine mutates: the set of
remote directories and the remote files, keyed by `(directory, name)`. -/
structure RemoteFS : Type where
  dirs : List String
  files : List ((String × String) × String)
deriving DecidableEq, Repr

/-- The names the remote file listing of directory `d` reports with kind
`file` (the `remote_filelist` of line 253). -/
def RemoteFS.fileNames (rfs : RemoteFS) (d : String) : List String :=
  (rfs.files.filter (fun q => q.1.1 == d)).map (fun q => q.1.2)

/-- Embedding of `ftp.storbinary('STOR ' + n, ...)` issued while the
session sits in remote directory `d`: create or replace the remote file. -/
def RemoteFS.storFile (rfs : RemoteFS) (d n content : String) : RemoteFS :=
  { rfs with files :=
      if ∃ q ∈ rfs.files, q.1 = (d, n) then
        rfs.files.map (fun q => if q.1 = (d, n) then ((d, n), content) else q)
      else rfs.files ++ [((d, n), content)] }

/- ---------------------------------------------------------------- -/
/- Mirror engine: remote to local (download)                         -/
/- ---------------------------------------------------------------- -/

/-- The per-file body of the download loop (lines 168-184): skip hidden
entries, compute the local target, skip an existing target unless
overwriting, test the extension of the full local target path against the
restriction list, and retrieve the contents unless dry-running. -/
def copyFileStep (overwrite_local_file dry_run : Bool) (filetype_restrictions : List String)
    (local_directory_copy : String) (acc : LocalFS × List Action) (f : String × String) :
    LocalFS × List Action :=
  if startsWithDot f.1 then acc
  else
    let local_file_copy := pjoin local_directory_copy f.1
    if overwrite_local_file = false ∧ acc.1.pathExists local_file_copy then acc
    else if lastSplitDot local_file_copy ∈ filetype_restrictions ∨ filetype_restrictions = [] then
      if dry_run then acc
      else (acc.1.writeFile local_file_copy f.2, acc.2 ++ [Action.retr f.1 local_file_copy])
    else acc

/-- The per-directory body of `recursively_copy_files_from_remote_directory`
(lines 157-184): map the remote path, create the local directory unless
dry-running, change to the remote directory, list it and run the file
loop. -/
def r2l_dirStep (overwrite_local_file dry_run : Bool) (filetype_restrictions : List String)
    (remote_root_directory local_root_full : String)
    (acc : LocalFS × List Action) (dn : String × DirTree) : LocalFS × List Action :=
  let local_directory_copy := pyReplace dn.1 remote_root_directory local_root_full
  let acc1 := if dry_run then acc
              else (acc.1.makedirs local_directory_copy,
                    acc.2 ++ [Action.makedirs local_directory_copy])
  let acc2 := (acc1.1, acc1.2 ++ [Action.cwdRemote dn.1])
  (dn.2.filesOf).foldl
    (copyFileStep overwrite_local_file dry_run filetype_restrictions local_directory_copy) acc2

/-- Embedding of `recursively_copy_files_from_remote_directory`
(lines 135-184) over a remote tree `t` rooted at `remote_root_directory`
and a starting local filesystem `fs`.  Returns the final local filesystem
and the trace of collaborator calls. -/
def recursively_copy_files_from_remote_directory
    (local_root_directory remote_root_directory : String)
    (overwrite_local_file verbose dry_run : Bool) (filetype_restrictions : List String)
    (t : DirTree) (fs : LocalFS) : LocalFS × List Action :=
  let local_root_full := pjoin local_root_directory (basename remote_root_directory)
  (walkTreePairs remoteKeep remote_root_directory t).foldl
    (r2l_dirStep overwrite_local_file dry_run filetype_restrictions
      remote_root_directory local_root_full)
    (fs, [])

/- ---------------------------------------------------------------- -/
/- Mirror engine: local to remote (upload)                           -/
/- ---------------------------------------------------------------- -/

/-- The single distinct fatal error of the upload engine: the
`NotImplementedError` raised in line 248 when a remote directory is
missing during a dry run. -/
inductive MirrorError : Type where
  | notImplementedError : MirrorError
deriving DecidableEq, Repr

instance decEqExcept {ε α : Type} [DecidableEq ε] [DecidableEq α] :
    DecidableEq (Except ε α)
  | .error a, .error b =>
    if h : a = b then .isTrue (by rw [h]) else .isFalse (by simp [h])
  | .error _, .ok _ => .isFalse (by simp)
  | .ok _, .error _ => .isFalse (by simp)
  | .ok a, .ok b =>
    if h : a = b then .isTrue (by rw [h]) else .isFalse (by simp [h])

/-- The per-file body of the upload loop (lines 255-270): the upload is
nested under `if f in remote_filelist`, then the extension test on the
bare file name, then the overwrite flag, then the dry-run skip. -/
def l2r_fileStep (overwrite_remote_file dry_run : Bool) (filetype_restrictions : List String)
    (remote_directory_copy : String) (remote_filelist : List String)
    (acc : RemoteFS × List Action) (f : String × String) : RemoteFS × List Action :=
  if f.1 ∈ remote_filelist then
    if lastSplitDot f.1 ∈ filetype_restrictions ∨ filetype_restrictions = [] then
      if overwrite_remote_file then
        if dry_run then acc
        else (acc.1.storFile remote_directory_copy f.1 f.2,
              acc.2 ++ [Action.stor remote_directory_copy f.1])
      else acc
    else acc
  else acc

/-- The per-directory body of `recursively_copy_files_from_local_directory`
(lines 234-270): map the local path, try `ftp.cwd`; on the path-not-found
error create the directory, except in a dry run, where the distinct
`NotImplementedError` is raised and the walk aborts; then list the local
files and the remote files and run the upload loop. -/
def l2r_dirStep (overwrite_remote_file dry_run : Bool) (filetype_restrictions : List String)
    (local_root_directory remote_root_full : String)
    (acc : List Action × Except MirrorError RemoteFS) (dn : String × DirTree) :
    List Action × Except MirrorError RemoteFS :=
  match acc.2 with
  | .error _ => acc
  | .ok rfs =>
    let remote_directory_copy := pyReplace dn.1 local_root_directory remote_root_full
    if remote_directory_copy ∈ rfs.dirs then
      let res := (dn.2.filesOf).foldl
        (l2r_fileStep overwrite_remote_file dry_run filetype_restrictions
          remote_directory_copy (rfs.fileNames remote_directory_copy))
        (rfs, acc.1 ++ [Action.cwdRemote remote_directory_copy])
      (res.2, .ok res.1)
    else if dry_run then
      (acc.1, .error .notImplementedError)
    else
      let rfs1 : RemoteFS := { rfs with dirs := rfs.dirs ++ [remote_directory_copy] }
      let res := (dn.2.filesOf).foldl
        (l2r_fileStep overwrite_remote_file dry_run filetype_restrictions
          remote_directory_copy (rfs1.fileNames remote_directory_copy))
        (rfs1, acc.1 ++ [Action.mkd remote_directory_copy])
      (res.2, .ok res.1)

/-- Embedding of `recursively_copy_files_from_local_directory`
(lines 212-270) over a local tree `t` rooted at `local_root_directory` and
a starting remote filesystem `rfs`.  Returns the trace of collaborator
calls and either the final remote filesystem or the raised error. -/
def recursively_copy_files_from_local_directory
    (remote_root_directory local_root_directory : String)
    (overwrite_remote_file verbose dry_run : Bool) (filetype_restrictions : List String)
    (t : DirTree) (rfs : RemoteFS) : List Action × Except MirrorError RemoteFS :=
  let remote_root_full := pjoin remote_root_directory (basename local_root_directory)
  (walkTreePairs allKeep local_root_directory t).foldl
    (l2r_dirStep overwrite_remote_file dry_run filetype_restrictions
      local_root_directory remote_root_full)
    ([], .ok rfs)

/- ---------------------------------------------------------------- -/
/- Session lifecycle and the single-file transfer                    -/
/- ---------------------------------------------------------------- -/

/-- The collaborator calls of `connect_to_remote` (lines 67-83): one
session is established; no close is ever issued. -/
def connect_to_remote_actions : List Action := [Action.sessionOpen]

/-- The collaborator calls of the constructor (lines 52-65): it stores the
credentials and calls `connect_to_remote`, so one session is opened at
construction time and kept in the `self.ftp` field. -/
def init_actions : List Action := connect_to_remote_actions

/-- Embedding of `copy_file_to_remote_directory` (lines 272-296) given the
local files available for reading: change to the target directory
(reporting and returning on failure), then store the file under its base
name (reporting and returning on failure). -/
def copy_file_to_remote_directory (local_file_path target_remote_directory : String)
    (localFiles : List (String × String)) (rfs : RemoteFS) : List Action × RemoteFS :=
  let file_name := basename local_file_path
  if target_remote_directory ∈ rfs.dirs then
    match localFiles.find? (fun q => q.1 == local_file_path) with
    | some q =>
      ([Action.cwdRemote target_remote_directory,
        Action.stor target_remote_directory file_name],
       rfs.storFile target_remote_directory file_name q.2)
    | none => ([Action.cwdRemote target_remote_directory], rfs)
  else ([], rfs)

/- Concrete sanity checks of the engines. -/

example :
    (recursively_copy_files_from_remote_directory "/L" "/r" false false false [] sampleT
      ⟨[], []⟩).2 =
    [Action.makedirs "/L/r", Action.cwdRemote "/r",
     Action.retr "f.txt" "/L/r/f.txt",
     Action.makedirs "/L/r/a", Action.cwdRemote "/r/a",
     Action.makedirs "/L/r/c", Action.cwdRemote "/r/c",
     Action.makedirs "/L/r/a/b", Action.cwdRemote "/r/a/b"] := by decide

example :
    (recursively_copy_files_from_remote_directory "/L" "/r" false false false [] sampleT
      ⟨[], []⟩).1.files = [("/L/r/f.txt", "x")] := by decide

example :
    (recursively_copy_files_from_local_directory "/R" "/L" true false false []
      (.node [("a.txt", "hello")] []) ⟨["/R", "/R/L"], []⟩) =
    ([Action.cwdRemote "/R/L"], .ok ⟨["/R", "/R/L"], []⟩) := by decide

example :
    (recursively_copy_files_from_local_directory "/R" "/L" true false false []
      (.node [("a.txt", "hello")] []) ⟨["/R", "/R/L"], [(("/R/L", "a.txt"), "old")]⟩) =
    ([Action.cwdRemote "/R/L", Action.stor "/R/L" "a.txt"],
     .ok ⟨["/R", "/R/L"], [(("/R/L", "a.txt"), "hello")]⟩) := by decide

example :
    (recursively_copy_files_from_local_directory "/R" "/L" false true true []
      (.node [("a.txt", "hello")] [("d", .node [] [])]) ⟨["/R", "/R/L"], []⟩) =
    ([Action.cwdRemote "/R/L"], .error .notImplementedError) := by decide

/- ---------------------------------------------------------------- -/
/- The working-directory model of walk_local_tree                    -/
/- ---------------------------------------------------------------- -/

/- The real `walk_local_tree` calls `os.chdir(current_directory)` on every
dequeued directory and then resolves `os.listdir(current_directory)` and
`os.path.isdir(entry_name)` against the process working directory it just
changed.  We model the operating system state as the filesystem tree
rooted at `/` together with the current working directory, kept as a list
of path segments. -/

/-- A path segment list: split at `/`, dropping empty segments and `.`
segments, as POSIX resolution does for paths without `..`. -/
def pathSegs (p : String) : List (List Char) :=
  (splitChar '/' p.data).filter (fun s => ¬ (s.isEmpty || s == ['.']))

/-- Resolve a path against the working directory: an absolute path stands
alone, a relative path is appended to the working directory. -/
def resolvePath (cwd : List (List Char)) (p : String) : List (List Char) :=
  if headIsSlash p then pathSegs p else cwd ++ pathSegs p

/-- Look up the directory at a segment list under a tree. A path ending at
a plain file resolves to `none` (it is not a directory). -/
def lookupDir : DirTree → List (List Char) → Option DirTree
  | t, [] => some t
  | .node _ subdirs, seg :: rest =>
    match subdirs.find? (fun q => q.1.data == seg) with
    | some q => lookupDir q.2 rest
    | none => none

/-- The observable outcome of one run of the working-directory walker:
the yielded paths, the arguments of the `os.chdir` calls in order, the
final working directory, and whether the walk ran to completion (`false`
when a `chdir` or `listdir` raised, i.e. resolution failed). -/
structure CwdRun : Type where
  yields : List String
  chdirs : List String
  cwd : List (List Char)
  ok : Bool
deriving DecidableEq, Repr

/-- The `while queue:` loop of `walk_local_tree` (lines 200-210) over the
operating-system model: chdir to the dequeued path, list it through the
(possibly changed) working directory, keep the entries for which
`os.path.isdir(name)` holds relative to the new working directory, and
enqueue and yield their joined paths.  Fuel only makes the recursion
structural; `DirTree.size` of the subtree is always enough. -/
def walkLocalCwdAux (fs : DirTree) : Nat → List String → List (List Char) → CwdRun
  | _, [], cwd => ⟨[], [], cwd, true⟩
  | 0, _ :: _, cwd => ⟨[], [], cwd, false⟩
  | fuel + 1, cur :: rest, cwd =>
    match lookupDir fs (resolvePath cwd cur) with
    | none => ⟨[], [cur], cwd, false⟩
    | some _ =>
      let cwd1 := resolvePath cwd cur
      match lookupDir fs (resolvePath cwd1 cur) with
      | none => ⟨[], [cur], cwd1, false⟩
      | some (.node files subdirs) =>
        let names := files.map Prod.fst ++ subdirs.map Prod.fst
        let dirNames := names.filter (fun n => (lookupDir fs (resolvePath cwd1 n)).isSome)
        let children := dirNames.map (fun n => pjoin cur n)
        let res := walkLocalCwdAux fs fuel (rest ++ children) cwd1
        ⟨children ++ res.yields, cur :: res.chdirs, res.cwd, res.ok⟩

/-- One run of `walk_local_tree` over the operating-system model: yield
the root, then run the queue loop. -/
def walk_local_cwd (fs : DirTree) (fuel : Nat) (local_root_directory : String)
    (cwd0 : List (List Char)) : CwdRun :=
  let res := walkLocalCwdAux fs fuel [local_root_directory] cwd0
  ⟨local_root_directory :: res.yields, res.chdirs, res.cwd, res.ok⟩

/-- A whole-filesystem sample: the working directory `/W` holds the
subtree `b/c` that a walk from `.` should traverse. -/
def osFS : DirTree :=
  .node [] [("W", .node [("f.txt", "x")] [("b", .node [] [("c", .node [] [])])])]

/- With a relative root `.` the walk yields the root and the depth-one
directory `./b`, then fails when listing `./b` (the name `b` resolves
against the changed working directory `/W/b`), so the depth-two directory
`./b/c` is never visited. -/
example :
    walk_local_cwd osFS 10 "." [['W']] =
    ⟨[".", "./b"], [".", "./b"], [['W'], ['b']], false⟩ := by decide

/- With the absolute root `/W` the same tree is walked completely and the
working directory is left at the last visited directory `/W/b/c`. -/
example :
    walk_local_cwd osFS 10 "/W" [['W']] =
    ⟨["/W", "/W/b", "/W/b/c"], ["/W", "/W/b", "/W/b/c"],
     [['W'], ['b'], ['c']], true⟩ := by decide

example : walk_local_tree "/W" (.node [("f.txt", "x")] [("b", .node [] [("c", .node [] [])])]) =
    ["/W", "/W/b", "/W/b/c"] := by decide

/- ---------------------------------------------------------------- -/
/- The canonical enumeration of kept directories                     -/
/- ---------------------------------------------------------------- -/

mutual

/-- The canonical (depth-first) enumeration of every directory of the tree
reachable from the root through entries that pass the `keep` filter, each
listed exactly once with its full path.  Used to state that the
breadth-first walkers visit exactly these directories. -/
def treeDirs (keep : String → Bool) (root : String) : DirTree → List (String × DirTree)
  | .node files subdirs => (root, .node files subdirs) :: treeDirsL keep root subdirs

/-- The canonical enumeration of the directories reachable through a list
of named subtrees of the directory at `root`. -/
def treeDirsL (keep : String → Bool) (root : String) :
    List (String × DirTree) → List (String × DirTree)
  | [] => []
  | (n, t) :: rest =>
    (if keep n then treeDirs keep (pjoin root n) t else []) ++ treeDirsL keep root rest

end

/-- The strict descendants of a walked pair in the canonical enumeration:
everything below the directory itself. -/
def strictDescs (keep : String → Bool) (p : String × DirTree) : List (String × DirTree) :=
  treeDirsL keep p.1 p.2.subdirsOf

theorem treeDirs_eq (keep : String → Bool) (root : String) (t : DirTree) :
    treeDirs keep root t = (root, t) :: strictDescs keep (root, t) := by
  cases t with
  | node files subdirs => rfl

theorem treeDirsL_eq_flatMap (keep : String → Bool) (root : String)
    (l : List (String × DirTree)) :
    treeDirsL keep root l =
      (l.filter (fun q => keep q.1)).flatMap
        (fun q => treeDirs keep (pjoin root q.1) q.2) := by
  induction l with
  | nil => rfl
  | cons q rest ih =>
    obtain ⟨n, t⟩ := q
    simp only [treeDirsL, List.filter_cons]
    by_cases hk : keep n
    · simp [hk, ih]
    · simp [hk, ih]

theorem strictDescs_eq_flatMap (keep : String → Bool) (p : String × DirTree) :
    strictDescs keep p =
      (childPairs keep p).flatMap (fun c => treeDirs keep c.1 c.2) := by
  obtain ⟨cur, t⟩ := p
  cases t with
  | node files subdirs =>
    simp only [strictDescs, DirTree.subdirsOf, childPairs]
    rw [treeDirsL_eq_flatMap, List.flatMap_map]

theorem cons_flatMap_perm {α : Type} (l : List α) (g : α → List α) :
    (l.flatMap (fun c => c :: g c)).Perm (l ++ l.flatMap g) := by
  induction l with
  | nil => simp
  | cons c rest ih =>
    simp only [List.flatMap_cons, List.cons_append]
    refine List.Perm.cons c ?_
    refine (ih.append_left (g c)).trans ?_
    rw [← List.append_assoc, ← List.append_assoc]
    exact (List.perm_append_comm).append_right _

theorem strictDescs_perm (keep : String → Bool) (p : String × DirTree) :
    (strictDescs keep p).Perm
      (childPairs keep p ++ (childPairs keep p).flatMap (strictDescs keep)) := by
  rw [strictDescs_eq_flatMap]
  have h : (childPairs keep p).flatMap (fun c => treeDirs keep c.1 c.2)
      = (childPairs keep p).flatMap (fun c => c :: strictDescs keep c) := by
    apply List.flatMap_congr
    intro c _
    rw [treeDirs_eq]
  rw [h]
  exact cons_flatMap_perm _ _

theorem walkQueue_perm (keep : String → Bool) :
    ∀ n q, sizeL q ≤ n → (walkQueue keep q).Perm (q.flatMap (strictDescs keep)) := by
  intro n
  induction n with
  | zero =>
    intro q hq
    cases q with
    | nil => simp [walkQueue_nil]
    | cons p rest =>
      exfalso
      have := p.2.one_le_size
      rw [sizeL_cons] at hq
      omega
  | succ n ih =>
    intro q hq
    cases q with
    | nil => simp [walkQueue_nil]
    | cons p rest =>
      have hp := p.2.one_le_size
      have hc := sizeL_childPairs_lt keep p
      have ha := sizeL_append rest (childPairs keep p)
      rw [sizeL_cons] at hq
      have hrec := ih (rest ++ childPairs keep p) (by omega)
      rw [walkQueue_cons, List.flatMap_cons]
      refine (hrec.append_left _).trans ?_
      rw [List.flatMap_append]
      refine ((List.perm_append_comm).append_left _).trans ?_
      rw [← List.append_assoc]
      exact ((strictDescs_perm keep p).symm).append_right _

/-- The breadth-first walk visits exactly the canonical enumeration of
kept directories, as a permutation of `(path, listing)` pairs. -/
theorem walkTreePairs_perm (keep : String → Bool) (root : String) (t : DirTree) :
    (walkTreePairs keep root t).Perm (treeDirs keep root t) := by
  rw [treeDirs_eq]
  unfold walkTreePairs
  refine List.Perm.cons _ ?_
  have h := walkQueue_perm keep (sizeL [(root, t)]) [(root, t)] (le_refl _)
  simpa using h

/-- Every element the queue loop yields is the join of a parent path and a
kept child name, and that parent was either already yielded before the
loop started (`seen`) or is yielded earlier in the loop's own output. -/
theorem walkQueue_parent (keep : String → Bool) :
    ∀ n q seen, sizeL q ≤ n → (∀ p ∈ q, p.1 ∈ seen) →
      ∀ i (hi : i < (walkQueue keep q).length),
        ∃ par nm, keep nm = true ∧
          ((walkQueue keep q)[i]).1 = pjoin par nm ∧
          par ∈ seen ++ ((walkQueue keep q).take i).map Prod.fst := by
  intro n
  induction n with
  | zero =>
    intro q seen hq hseen i hi
    cases q with
    | nil => rw [walkQueue_nil] at hi; simp at hi
    | cons p rest =>
      exfalso
      have := p.2.one_le_size
      rw [sizeL_cons] at hq
      omega
  | succ n ih =>
    intro q seen hq hseen i hi
    cases q with
    | nil => rw [walkQueue_nil] at hi; simp at hi
    | cons p rest =>
      have hp := p.2.one_le_size
      have hc := sizeL_childPairs_lt keep p
      have ha := sizeL_append rest (childPairs keep p)
      rw [sizeL_cons] at hq
      revert hi
      rw [walkQueue_cons]
      intro hi
      by_cases hlt : i < (childPairs keep p).length
      · -- the element is a freshly discovered child of the dequeued pair
        rw [List.getElem_append_left hlt]
        obtain ⟨cur, t⟩ := p
        cases t with
        | node files subdirs =>
          simp only [childPairs] at hlt ⊢
          have hflt : i < (subdirs.filter (fun q => keep q.1)).length := by
            simpa using hlt
          refine ⟨cur, ((subdirs.filter (fun q => keep q.1))[i]).1, ?_, ?_, ?_⟩
          · have hx := List.of_mem_filter (List.getElem_mem hflt)
            simpa using hx
          · simp
          · have : cur ∈ seen := hseen _ (List.mem_cons_self _ _)
            exact List.mem_append_left _ this
      · -- the element comes from the continued loop; apply the inner bound
        push_neg at hlt
        have hi2 : i - (childPairs keep p).length <
            (walkQueue keep (rest ++ childPairs keep p)).length := by
          rw [List.length_append] at hi
          omega
        rw [List.getElem_append_right hlt]
        have hrec := ih (rest ++ childPairs keep p) (seen ++ (childPairs keep p).map Prod.fst)
          (by omega) ?_ (i - (childPairs keep p).length) hi2
        · obtain ⟨par, nm, hknm, hjoin, hmem⟩ := hrec
          refine ⟨par, nm, hknm, hjoin, ?_⟩
          rw [List.take_append_eq_append_take,
            List.take_of_length_le hlt, List.map_append, ← List.append_assoc]
          exact hmem
        · intro p' hp'
          rcases List.mem_append.mp hp' with h | h
          · exact List.mem_append_left _ (hseen _ (List.mem_cons_of_mem _ h))
          · exact List.mem_append_right _ (List.mem_map_of_mem Prod.fst h)

/-- Parent-precedes property of a whole walk, at the level of the yielded
path strings: the root is yielded first, and every later element is the
join of a kept child name onto a path yielded strictly earlier. -/
theorem walk_parent (keep : String → Bool) (root : String) (t : DirTree) :
    ∀ i (hi : i < ((walkTreePairs keep root t).map Prod.fst).length), 0 < i →
      ∃ par nm, keep nm = true ∧
        ((walkTreePairs keep root t).map Prod.fst)[i] = pjoin par nm ∧
        par ∈ ((walkTreePairs keep root t).map Prod.fst).take i := by
  intro i hi hpos
  unfold walkTreePairs at hi ⊢
  obtain ⟨j, rfl⟩ : ∃ j, i = j + 1 := ⟨i - 1, by omega⟩
  simp only [List.map_cons, List.length_cons] at hi ⊢
  have hj : j < (walkQueue keep [(root, t)]).length := by
    simpa using hi
  have h := walkQueue_parent keep (sizeL [(root, t)]) [(root, t)] [root] (le_refl _)
    (by intro p hp; simp at hp; simp [hp]) j hj
  obtain ⟨par, nm, hknm, hjoin, hmem⟩ := h
  refine ⟨par, nm, hknm, ?_, ?_⟩
  · simp only [List.getElem_cons_succ]
    rw [List.getElem_map]
    rw [hjoin]
  · simp only [List.take_succ_cons]
    rcases List.mem_append.mp hmem with h | h
    · simp at h
      simp [h]
    · rw [List.map_take] at h
      exact List.mem_cons_of_mem _ h

/- ---------------------------------------------------------------- -/
/- Hidden-entry filtering (remote walker) and its absence (local)    -/
/- ---------------------------------------------------------------- -/

mutual

/-- Remove every subdirectory entry whose name starts with a dot,
recursively.  The remote walker's output only depends on this pruned
tree. -/
def pruneHidden : DirTree → DirTree
  | .node files subdirs => .node files (pruneSubs subdirs)

/-- Remove dotted entries from a subdirectory list, recursively. -/
def pruneSubs : List (String × DirTree) → List (String × DirTree)
  | [] => []
  | (n, t) :: rest =>
    if startsWithDot n then pruneSubs rest else (n, pruneHidden t) :: pruneSubs rest

end

/-- Rename helper: prune the subtree of a queued pair. -/
def pruneP (c : String × DirTree) : String × DirTree := (c.1, pruneHidden c.2)

theorem filter_pruneSubs (l : List (String × DirTree)) :
    (pruneSubs l).filter (fun q => remoteKeep q.1) =
      (l.filter (fun q => remoteKeep q.1)).map (fun q => (q.1, pruneHidden q.2)) := by
  induction l with
  | nil => rfl
  | cons q rest ih =>
    obtain ⟨n, t⟩ := q
    by_cases hd : startsWithDot n
    · have hk : remoteKeep n = false := by
        simp [remoteKeep, hd]
      simp [pruneSubs, hd, List.filter_cons, hk, ih]
    · have hk : remoteKeep n = true := by
        simp [remoteKeep, hd]
      simp [pruneSubs, hd, List.filter_cons, hk, ih]

theorem childPairs_prune (p : String × DirTree) :
    childPairs remoteKeep (pruneP p) = (childPairs remoteKeep p).map pruneP := by
  obtain ⟨cur, t⟩ := p
  cases t with
  | node files subdirs =>
    simp only [pruneP, pruneHidden, childPairs, filter_pruneSubs, List.map_map]
    rfl

theorem walkQueue_prune :
    ∀ n q, sizeL q ≤ n →
      walkQueue remoteKeep (q.map pruneP) = (walkQueue remoteKeep q).map pruneP := by
  intro n
  induction n with
  | zero =>
    intro q hq
    cases q with
    | nil => simp [walkQueue_nil]
    | cons p rest =>
      exfalso
      have := p.2.one_le_size
      rw [sizeL_cons] at hq
      omega
  | succ n ih =>
    intro q hq
    cases q with
    | nil => simp [walkQueue_nil]
    | cons p rest =>
      have hp := p.2.one_le_size
      have hc := sizeL_childPairs_lt remoteKeep p
      have ha := sizeL_append rest (childPairs remoteKeep p)
      rw [sizeL_cons] at hq
      rw [List.map_cons, walkQueue_cons, walkQueue_cons, childPairs_prune]
      have hmap : rest.map pruneP ++ (childPairs remoteKeep p).map pruneP =
          (rest ++ childPairs remoteKeep p).map pruneP := (List.map_append _ _ _).symm
      rw [hmap, ih (rest ++ childPairs remoteKeep p) (by omega), List.map_append]

/-- The remote walker never descends into hidden subtrees: its output over
a tree and over the tree with every hidden subtree removed coincide. -/
theorem walk_remote_tree_prune (root : String) (t : DirTree) :
    walk_remote_tree root (pruneHidden t) = walk_remote_tree root t := by
  unfold walk_remote_tree walkTreePairs
  have h0 : [(root, pruneHidden t)] = [(root, t)].map pruneP := rfl
  rw [h0, walkQueue_prune (sizeL [(root, t)]) [(root, t)] (le_refl _)]
  simp [pruneP]

theorem mem_treeDirsL_of_mem (root : String) (l : List (String × DirTree))
    (p : String × DirTree) (hp : p ∈ l) :
    (pjoin root p.1, p.2) ∈ treeDirsL allKeep root l := by
  induction l with
  | nil => simp at hp
  | cons q rest ih =>
    obtain ⟨n, t⟩ := q
    simp only [treeDirsL, allKeep, if_true, List.mem_append]
    rcases List.mem_cons.mp hp with h | h
    · subst h
      left
      rw [treeDirs_eq]
      exact List.mem_cons_self _ _
    · right
      exact ih h

theorem mem_treeDirsL_trans (root : String) (l : List (String × DirTree))
    (n : String) (t : DirTree) (hnt : (n, t) ∈ l) (x : String × DirTree)
    (hx : x ∈ treeDirs allKeep (pjoin root n) t) :
    x ∈ treeDirsL allKeep root l := by
  induction l with
  | nil => simp at hnt
  | cons q rest ih =>
    obtain ⟨m, s⟩ := q
    simp only [treeDirsL, allKeep, if_true, List.mem_append]
    rcases List.mem_cons.mp hnt with h | h
    · left
      injection h with h1 h2
      subst h1
      subst h2
      exact hx
    · right
      exact ih h

/-- The local walker yields every immediate subdirectory, whatever its
name, and descends into each of them (it yields their subdirectories in
turn). -/
theorem walk_local_tree_mem (root : String) (t : DirTree)
    (p : String × DirTree) (hp : p ∈ t.subdirsOf) :
    pjoin root p.1 ∈ walk_local_tree root t ∧
    ∀ q ∈ p.2.subdirsOf, pjoin (pjoin root p.1) q.1 ∈ walk_local_tree root t := by
  have hperm : (walk_local_tree root t).Perm ((treeDirs allKeep root t).map Prod.fst) :=
    (walkTreePairs_perm allKeep root t).map Prod.fst
  constructor
  · apply hperm.mem_iff.mpr
    have hy := mem_treeDirsL_of_mem root t.subdirsOf p hp
    have hz := List.mem_map_of_mem Prod.fst (List.mem_cons_of_mem (root, t) hy)
    rw [treeDirs_eq]
    exact hz
  · intro q hq
    apply hperm.mem_iff.mpr
    have hx : (pjoin (pjoin root p.1) q.1, q.2) ∈ treeDirs allKeep (pjoin root p.1) p.2 := by
      rw [treeDirs_eq]
      exact List.mem_cons_of_mem _ (mem_treeDirsL_of_mem (pjoin root p.1) p.2.subdirsOf q hq)
    have hy : (pjoin (pjoin root p.1) q.1, q.2) ∈ treeDirsL allKeep root t.subdirsOf :=
      mem_treeDirsL_trans root t.subdirsOf p.1 p.2 hp _ hx
    have hz := List.mem_map_of_mem Prod.fst (List.mem_cons_of_mem (root, t) hy)
    rw [treeDirs_eq]
    exact hz

/- ---------------------------------------------------------------- -/
/- Trace projections                                                 -/
/- ---------------------------------------------------------------- -/

/-- Session lifecycle events in a trace. -/
def Action.isSessionEvent : Action → Bool
  | .sessionOpen => true
  | .sessionClose => true
  | _ => false

/-- Calls that mutate a destination: local directory creation, file
retrieval into a local file, remote directory creation, remote file
storage. -/
def Action.mutatesDest : Action → Bool
  | .makedirs _ => true
  | .retr _ _ => true
  | .mkd _ => true
  | .stor _ _ => true
  | _ => false

/-- The arguments of the `os.makedirs` calls of a trace, in order. -/
def makedirsPaths (tr : List Action) : List String :=
  tr.filterMap (fun a => match a with | .makedirs p => some p | _ => none)

/-- The remote directories an upload run settles into, in order: the
argument of the successful `ftp.cwd` or of the `ftp.mkd` that replaced
it. -/
def remoteDirsUsed (tr : List Action) : List String :=
  tr.filterMap (fun a =>
    match a with
    | .cwdRemote p => some p
    | .mkd p => some p
    | _ => none)

/- ---------------------------------------------------------------- -/
/- Download engine lemmas                                            -/
/- ---------------------------------------------------------------- -/

theorem copyFileStep_trace (ow dr : Bool) (restr : List String) (ld : String)
    (acc : LocalFS × List Action) (f : String × String) :
    (copyFileStep ow dr restr ld acc f).2 = acc.2 ∨
    (copyFileStep ow dr restr ld acc f).2 = acc.2 ++ [Action.retr f.1 (pjoin ld f.1)] := by
  simp only [copyFileStep]
  split
  · left; rfl
  · split
    · left; rfl
    · split
      · split
        · left; rfl
        · right; rfl
      · left; rfl

theorem copyFileFold_trace (ow dr : Bool) (restr : List String) (ld : String) :
    ∀ (files : List (String × String)) (acc : LocalFS × List Action),
      ∃ l, (files.foldl (copyFileStep ow dr restr ld) acc).2 = acc.2 ++ l ∧
        ∀ a ∈ l, ∃ n t, a = Action.retr n t := by
  intro files
  induction files with
  | nil =>
    intro acc
    exact ⟨[], by simp, by simp⟩
  | cons f rest ih =>
    intro acc
    obtain ⟨l, hl, hp⟩ := ih (copyFileStep ow dr restr ld acc f)
    rcases copyFileStep_trace ow dr restr ld acc f with h | h
    · refine ⟨l, ?_, hp⟩
      rw [List.foldl_cons, hl, h]
    · refine ⟨Action.retr f.1 (pjoin ld f.1) :: l, ?_, ?_⟩
      · rw [List.foldl_cons, hl, h, List.append_assoc]
        rfl
      · intro a ha
        rcases List.mem_cons.mp ha with h' | h'
        · exact ⟨f.1, pjoin ld f.1, h'⟩
        · exact hp a h'

theorem r2l_dirStep_trace (ow dr : Bool) (restr : List String) (rr lrf : String)
    (acc : LocalFS × List Action) (dn : String × DirTree) :
    ∃ l, (r2l_dirStep ow dr restr rr lrf acc dn).2 = acc.2 ++ l ∧
      ∀ a ∈ l, (∃ p, a = Action.makedirs p) ∨ (∃ p, a = Action.cwdRemote p) ∨
        (∃ n t, a = Action.retr n t) := by
  simp only [r2l_dirStep]
  split
  · obtain ⟨l, hl, hp⟩ := copyFileFold_trace ow dr restr
      (pyReplace dn.1 rr lrf) dn.2.filesOf (acc.1, acc.2 ++ [Action.cwdRemote dn.1])
    refine ⟨Action.cwdRemote dn.1 :: l, ?_, ?_⟩
    · simpa using hl
    · intro a ha
      rcases List.mem_cons.mp ha with h' | h'
      · exact Or.inr (Or.inl ⟨dn.1, h'⟩)
      · obtain ⟨n, t, ht⟩ := hp a h'
        exact Or.inr (Or.inr ⟨n, t, ht⟩)
  · obtain ⟨l, hl, hp⟩ := copyFileFold_trace ow dr restr
      (pyReplace dn.1 rr lrf) dn.2.filesOf
      ((acc.1.makedirs (pyReplace dn.1 rr lrf),
        acc.2 ++ [Action.makedirs (pyReplace dn.1 rr lrf)]).1,
       (acc.1.makedirs (pyReplace dn.1 rr lrf),
        acc.2 ++ [Action.makedirs (pyReplace dn.1 rr lrf)]).2 ++ [Action.cwdRemote dn.1])
    refine ⟨Action.makedirs (pyReplace dn.1 rr lrf) :: Action.cwdRemote dn.1 :: l, ?_, ?_⟩
    · simpa using hl
    · intro a ha
      rcases List.mem_cons.mp ha with h' | h'
      · exact Or.inl ⟨_, h'⟩
      · rcases List.mem_cons.mp h' with h'' | h''
        · exact Or.inr (Or.inl ⟨dn.1, h''⟩)
        · obtain ⟨n, t, ht⟩ := hp a h''
          exact Or.inr (Or.inr ⟨n, t, ht⟩)

theorem r2l_fold_trace (ow dr : Bool) (restr : List String) (rr lrf : String) :
    ∀ (P : List (String × DirTree)) (acc : LocalFS × List Action),
      ∃ l, (P.foldl (r2l_dirStep ow dr restr rr lrf) acc).2 = acc.2 ++ l ∧
        ∀ a ∈ l, (∃ p, a = Action.makedirs p) ∨ (∃ p, a = Action.cwdRemote p) ∨
          (∃ n t, a = Action.retr n t) := by
  intro P
  induction P with
  | nil =>
    intro acc
    exact ⟨[], by simp, by simp⟩
  | cons dn rest ih =>
    intro acc
    obtain ⟨l1, hl1, hp1⟩ := r2l_dirStep_trace ow dr restr rr lrf acc dn
    obtain ⟨l2, hl2, hp2⟩ := ih (r2l_dirStep ow dr restr rr lrf acc dn)
    refine ⟨l1 ++ l2, ?_, ?_⟩
    · rw [List.foldl_cons, hl2, hl1, List.append_assoc]
    · intro a ha
      rcases List.mem_append.mp ha with h | h
      · exact hp1 a h
      · exact hp2 a h

theorem copyFileStep_dry (ow : Bool) (restr : List String) (ld : String)
    (acc : LocalFS × List Action) (f : String × String) :
    copyFileStep ow true restr ld acc f = acc := by
  simp only [copyFileStep]
  split
  · rfl
  · split
    · rfl
    · split
      · simp
      · rfl

theorem copyFileFold_dry (ow : Bool) (restr : List String) (ld : String) :
    ∀ (files : List (String × String)) (acc : LocalFS × List Action),
      files.foldl (copyFileStep ow true restr ld) acc = acc := by
  intro files
  induction files with
  | nil => intro acc; rfl
  | cons f rest ih =>
    intro acc
    rw [List.foldl_cons, copyFileStep_dry, ih]

theorem r2l_dirStep_dry (ow : Bool) (restr : List String) (rr lrf : String)
    (acc : LocalFS × List Action) (dn : String × DirTree) :
    r2l_dirStep ow true restr rr lrf acc dn =
      (acc.1, acc.2 ++ [Action.cwdRemote dn.1]) := by
  simp only [r2l_dirStep, if_true, copyFileFold_dry]

/-- A dry download run neither touches the local filesystem nor issues
any call besides the remote directory changes of the traversal. -/
theorem r2l_dry_run_eq (lr rr : String) (ow vb : Bool) (restr : List String)
    (t : DirTree) (fs : LocalFS) :
    recursively_copy_files_from_remote_directory lr rr ow vb true restr t fs =
      (fs, (walk_remote_tree rr t).map Action.cwdRemote) := by
  unfold recursively_copy_files_from_remote_directory walk_remote_tree
  generalize walkTreePairs remoteKeep rr t = P
  have hgen : ∀ (P : List (String × DirTree)) (fs0 : LocalFS) (tr0 : List Action),
      P.foldl (r2l_dirStep ow true restr rr (pjoin lr (basename rr))) (fs0, tr0) =
        (fs0, tr0 ++ (P.map Prod.fst).map Action.cwdRemote) := by
    intro P
    induction P with
    | nil => intro fs0 tr0; simp
    | cons dn rest ih =>
      intro fs0 tr0
      rw [List.foldl_cons, r2l_dirStep_dry, ih]
      simp
  simpa using hgen P fs []

/- ---------------------------------------------------------------- -/
/- Upload engine lemmas                                              -/
/- ---------------------------------------------------------------- -/

/-- A local file whose name is absent from the remote listing is never
uploaded: the whole upload body sits under `if f in remote_filelist`. -/
theorem l2r_fileStep_absent (ow dr : Bool) (restr : List String) (rd : String)
    (rl : List String) (acc : RemoteFS × List Action) (f : String × String)
    (hf : f.1 ∉ rl) :
    l2r_fileStep ow dr restr rd rl acc f = acc := by
  simp [l2r_fileStep, hf]

theorem l2r_fileStep_trace (ow dr : Bool) (restr : List String) (rd : String)
    (rl : List String) (acc : RemoteFS × List Action) (f : String × String) :
    (l2r_fileStep ow dr restr rd rl acc f).2 = acc.2 ∨
    (l2r_fileStep ow dr restr rd rl acc f).2 = acc.2 ++ [Action.stor rd f.1] := by
  simp only [l2r_fileStep]
  split
  · split
    · split
      · split
        · left; rfl
        · right; rfl
      · left; rfl
    · left; rfl
  · left; rfl

theorem l2r_fileFold_trace (ow dr : Bool) (restr : List String) (rd : String)
    (rl : List String) :
    ∀ (files : List (String × String)) (acc : RemoteFS × List Action),
      ∃ l, (files.foldl (l2r_fileStep ow dr restr rd rl) acc).2 = acc.2 ++ l ∧
        ∀ a ∈ l, ∃ d n, a = Action.stor d n := by
  intro files
  induction files with
  | nil =>
    intro acc
    exact ⟨[], by simp, by simp⟩
  | cons f rest ih =>
    intro acc
    obtain ⟨l, hl, hp⟩ := ih (l2r_fileStep ow dr restr rd rl acc f)
    rcases l2r_fileStep_trace ow dr restr rd rl acc f with h | h
    · refine ⟨l, ?_, hp⟩
      rw [List.foldl_cons, hl, h]
    · refine ⟨Action.stor rd f.1 :: l, ?_, ?_⟩
      · rw [List.foldl_cons, hl, h, List.append_assoc]
        rfl
      · intro a ha
        rcases List.mem_cons.mp ha with h' | h'
        · exact ⟨rd, f.1, h'⟩
        · exact hp a h'

theorem l2r_fileStep_dry (ow : Bool) (restr : List String) (rd : String)
    (rl : List String) (acc : RemoteFS × List Action) (f : String × String) :
    l2r_fileStep ow true restr rd rl acc f = acc := by
  simp only [l2r_fileStep]
  split
  · split
    · split
      · simp
      · rfl
    · rfl
  · rfl

theorem l2r_fileFold_dry (ow : Bool) (restr : List String) (rd : String)
    (rl : List String) :
    ∀ (files : List (String × String)) (acc : RemoteFS × List Action),
      files.foldl (l2r_fileStep ow true restr rd rl) acc = acc := by
  intro files
  induction files with
  | nil => intro acc; rfl
  | cons f rest ih =>
    intro acc
    rw [List.foldl_cons, l2r_fileStep_dry, ih]

theorem l2r_dirStep_error (ow dr : Bool) (restr : List String) (lr rrf : String)
    (tr : List Action) (e : MirrorError) (dn : String × DirTree) :
    l2r_dirStep ow dr restr lr rrf (tr, .error e) dn = (tr, .error e) := rfl

theorem l2r_fold_error (ow dr : Bool) (restr : List String) (lr rrf : String) :
    ∀ (P : List (String × DirTree)) (tr : List Action) (e : MirrorError),
      P.foldl (l2r_dirStep ow dr restr lr rrf) (tr, .error e) = (tr, .error e) := by
  intro P
  induction P with
  | nil => intro tr e; rfl
  | cons dn rest ih =>
    intro tr e
    rw [List.foldl_cons, l2r_dirStep_error, ih]

/-- A dry upload step: when the mapped remote directory exists the step
only records the directory change; when it is missing the step raises the
distinct `NotImplementedError`. -/
theorem l2r_dirStep_dry (ow : Bool) (restr : List String) (lr rrf : String)
    (tr : List Action) (rfs : RemoteFS) (dn : String × DirTree) :
    l2r_dirStep ow true restr lr rrf (tr, .ok rfs) dn =
      if pyReplace dn.1 lr rrf ∈ rfs.dirs then
        (tr ++ [Action.cwdRemote (pyReplace dn.1 lr rrf)], .ok rfs)
      else (tr, .error .notImplementedError) := by
  simp only [l2r_dirStep, l2r_fileFold_dry]
  split
  · simp
  · simp

/-- In a dry upload run, a missing mapped remote directory anywhere along
the walk makes the whole operation end in the `NotImplementedError`. -/
theorem l2r_fold_dry_missing (ow : Bool) (restr : List String) (lr rrf : String) :
    ∀ (P : List (String × DirTree)) (tr : List Action) (rfs : RemoteFS),
      (∃ dn ∈ P, pyReplace dn.1 lr rrf ∉ rfs.dirs) →
      (P.foldl (l2r_dirStep ow true restr lr rrf) (tr, .ok rfs)).2 =
        .error .notImplementedError := by
  intro P
  induction P with
  | nil =>
    intro tr rfs h
    simp at h
  | cons dn rest ih =>
    intro tr rfs h
    rw [List.foldl_cons, l2r_dirStep_dry]
    by_cases hd : pyReplace dn.1 lr rrf ∈ rfs.dirs
    · rw [if_pos hd]
      apply ih
      obtain ⟨dn0, hdn0, hmiss⟩ := h
      rcases List.mem_cons.mp hdn0 with h' | h'
      · exfalso
        subst h'
        exact hmiss hd
      · exact ⟨dn0, h', hmiss⟩
    · rw [if_neg hd]
      rw [l2r_fold_error]

/-- A dry upload run issues only remote directory changes: no `mkd`, no
`stor` (and certainly no local mutation). -/
theorem l2r_fold_dry_trace (ow : Bool) (restr : List String) (lr rrf : String) :
    ∀ (P : List (String × DirTree)) (tr : List Action) (rfs : RemoteFS),
      ∃ l, (P.foldl (l2r_dirStep ow true restr lr rrf) (tr, .ok rfs)).1 = tr ++ l ∧
        ∀ a ∈ l, ∃ p, a = Action.cwdRemote p := by
  intro P
  induction P with
  | nil =>
    intro tr rfs
    exact ⟨[], by simp, by simp⟩
  | cons dn rest ih =>
    intro tr rfs
    rw [List.foldl_cons, l2r_dirStep_dry]
    by_cases hd : pyReplace dn.1 lr rrf ∈ rfs.dirs
    · rw [if_pos hd]
      obtain ⟨l, hl, hp⟩ := ih (tr ++ [Action.cwdRemote (pyReplace dn.1 lr rrf)]) rfs
      refine ⟨Action.cwdRemote (pyReplace dn.1 lr rrf) :: l, ?_, ?_⟩
      · rw [hl, List.append_assoc]
        rfl
      · intro a ha
        rcases List.mem_cons.mp ha with h' | h'
        · exact ⟨_, h'⟩
        · exact hp a h'
    · rw [if_neg hd, l2r_fold_error]
      exact ⟨[], by simp, by simp⟩

/-- General trace shape of the upload engine: it only issues remote
directory changes, remote directory creations and remote stores. -/
theorem l2r_dirStep_trace (ow dr : Bool) (restr : List String) (lr rrf : String)
    (acc : List Action × Except MirrorError RemoteFS) (dn : String × DirTree) :
    ∃ l, (l2r_dirStep ow dr restr lr rrf acc dn).1 = acc.1 ++ l ∧
      ∀ a ∈ l, (∃ p, a = Action.cwdRemote p) ∨ (∃ p, a = Action.mkd p) ∨
        (∃ d n, a = Action.stor d n) := by
  obtain ⟨tr, res⟩ := acc
  cases res with
  | error e => exact ⟨[], by simp [l2r_dirStep_error], by simp⟩
  | ok rfs =>
    simp only [l2r_dirStep]
    split
    · obtain ⟨l, hl, hp⟩ := l2r_fileFold_trace ow dr restr (pyReplace dn.1 lr rrf)
        (rfs.fileNames (pyReplace dn.1 lr rrf)) dn.2.filesOf
        (rfs, tr ++ [Action.cwdRemote (pyReplace dn.1 lr rrf)])
      refine ⟨Action.cwdRemote (pyReplace dn.1 lr rrf) :: l, ?_, ?_⟩
      · simpa using hl
      · intro a ha
        rcases List.mem_cons.mp ha with h' | h'
        · exact Or.inl ⟨_, h'⟩
        · obtain ⟨d, n, h⟩ := hp a h'
          exact Or.inr (Or.inr ⟨d, n, h⟩)
    · split
      · exact ⟨[], by simp, by simp⟩
      · obtain ⟨l, hl, hp⟩ := l2r_fileFold_trace ow dr restr (pyReplace dn.1 lr rrf)
          (RemoteFS.fileNames { rfs with dirs := rfs.dirs ++ [pyReplace dn.1 lr rrf] }
            (pyReplace dn.1 lr rrf)) dn.2.filesOf
          ({ rfs with dirs := rfs.dirs ++ [pyReplace dn.1 lr rrf] },
           tr ++ [Action.mkd (pyReplace dn.1 lr rrf)])
        refine ⟨Action.mkd (pyReplace dn.1 lr rrf) :: l, ?_, ?_⟩
        · simpa using hl
        · intro a ha
          rcases List.mem_cons.mp ha with h' | h'
          · exact Or.inr (Or.inl ⟨_, h'⟩)
          · obtain ⟨d, n, h⟩ := hp a h'
            exact Or.inr (Or.inr ⟨d, n, h⟩)

theorem l2r_fold_trace (ow dr : Bool) (restr : List String) (lr rrf : String) :
    ∀ (P : List (String × DirTree)) (acc : List Action × Except MirrorError RemoteFS),
      ∃ l, (P.foldl (l2r_dirStep ow dr restr lr rrf) acc).1 = acc.1 ++ l ∧
        ∀ a ∈ l, (∃ p, a = Action.cwdRemote p) ∨ (∃ p, a = Action.mkd p) ∨
          (∃ d n, a = Action.stor d n) := by
  intro P
  induction P with
  | nil =>
    intro acc
    exact ⟨[], by simp, by simp⟩
  | cons dn rest ih =>
    intro acc
    obtain ⟨l1, hl1, hp1⟩ := l2r_dirStep_trace ow dr restr lr rrf acc dn
    obtain ⟨l2, hl2, hp2⟩ := ih (l2r_dirStep ow dr restr lr rrf acc dn)
    refine ⟨l1 ++ l2, ?_, ?_⟩
    · rw [List.foldl_cons, hl2, hl1, List.append_assoc]
    · intro a ha
      rcases List.mem_append.mp ha with h | h
      · exact hp1 a h
      · exact hp2 a h

/- ---------------------------------------------------------------- -/
/- Destination path mapping lemmas                                   -/
/- ---------------------------------------------------------------- -/

theorem makedirsPaths_append (a b : List Action) :
    makedirsPaths (a ++ b) = makedirsPaths a ++ makedirsPaths b := by
  simp [makedirsPaths]

theorem makedirsPaths_retr_nil (l : List Action)
    (h : ∀ a ∈ l, ∃ n t, a = Action.retr n t) : makedirsPaths l = [] := by
  rw [makedirsPaths, List.filterMap_eq_nil_iff]
  intro a ha
  obtain ⟨n, t, rfl⟩ := h a ha
  rfl

theorem remoteDirsUsed_append (a b : List Action) :
    remoteDirsUsed (a ++ b) = remoteDirsUsed a ++ remoteDirsUsed b := by
  simp [remoteDirsUsed]

theorem remoteDirsUsed_stor_nil (l : List Action)
    (h : ∀ a ∈ l, ∃ d n, a = Action.stor d n) : remoteDirsUsed l = [] := by
  rw [remoteDirsUsed, List.filterMap_eq_nil_iff]
  intro a ha
  obtain ⟨d, n, rfl⟩ := h a ha
  rfl

/-- The non-dry download step: create the mapped directory, record the
directory change, then run the file loop. -/
theorem r2l_dirStep_eq (ow : Bool) (restr : List String) (rr lrf : String)
    (acc : LocalFS × List Action) (dn : String × DirTree) :
    r2l_dirStep ow false restr rr lrf acc dn =
      (dn.2.filesOf).foldl (copyFileStep ow false restr (pyReplace dn.1 rr lrf))
        (acc.1.makedirs (pyReplace dn.1 rr lrf),
         acc.2 ++ [Action.makedirs (pyReplace dn.1 rr lrf), Action.cwdRemote dn.1]) := by
  simp [r2l_dirStep]

theorem r2l_dirStep_makedirsPaths (ow : Bool) (restr : List String) (rr lrf : String)
    (acc : LocalFS × List Action) (dn : String × DirTree) :
    makedirsPaths ((r2l_dirStep ow false restr rr lrf acc dn).2) =
      makedirsPaths acc.2 ++ [pyReplace dn.1 rr lrf] := by
  rw [r2l_dirStep_eq]
  obtain ⟨l, hl, hp⟩ := copyFileFold_trace ow false restr (pyReplace dn.1 rr lrf)
    dn.2.filesOf
    (acc.1.makedirs (pyReplace dn.1 rr lrf),
     acc.2 ++ [Action.makedirs (pyReplace dn.1 rr lrf), Action.cwdRemote dn.1])
  rw [hl]
  simp only [makedirsPaths_append, makedirsPaths_retr_nil l hp, List.append_nil]
  rfl

theorem r2l_fold_makedirsPaths (ow : Bool) (restr : List String) (rr lrf : String) :
    ∀ (P : List (String × DirTree)) (acc : LocalFS × List Action),
      makedirsPaths ((P.foldl (r2l_dirStep ow false restr rr lrf) acc).2) =
        makedirsPaths acc.2 ++ P.map (fun dn => pyReplace dn.1 rr lrf) := by
  intro P
  induction P with
  | nil => intro acc; simp
  | cons dn rest ih =>
    intro acc
    rw [List.foldl_cons, ih, r2l_dirStep_makedirsPaths, List.map_cons, List.append_assoc]
    rfl

/-- In the upload engine, each processed directory contributes its mapped
remote path to the used-directory sequence, which therefore is a prefix
of the mapped walk, and the whole mapped walk on a successful run. -/
theorem l2r_fold_dirsUsed (ow dr : Bool) (restr : List String) (lr rrf : String) :
    ∀ (P : List (String × DirTree)) (tr : List Action) (rfs : RemoteFS),
      ∃ k, remoteDirsUsed ((P.foldl (l2r_dirStep ow dr restr lr rrf) (tr, .ok rfs)).1) =
          remoteDirsUsed tr ++ (P.map (fun dn => pyReplace dn.1 lr rrf)).take k ∧
        (∀ rfs', (P.foldl (l2r_dirStep ow dr restr lr rrf) (tr, .ok rfs)).2 = .ok rfs' →
          (P.map (fun dn => pyReplace dn.1 lr rrf)).take k =
            P.map (fun dn => pyReplace dn.1 lr rrf)) := by
  intro P
  induction P with
  | nil =>
    intro tr rfs
    exact ⟨0, by simp, by intro rfs' h; simp⟩
  | cons dn rest ih =>
    intro tr rfs
    rw [List.foldl_cons]
    simp only [l2r_dirStep]
    split
    · -- cwd succeeds
      obtain ⟨l, hl, hp⟩ := l2r_fileFold_trace ow dr restr (pyReplace dn.1 lr rrf)
        (rfs.fileNames (pyReplace dn.1 lr rrf)) dn.2.filesOf
        (rfs, tr ++ [Action.cwdRemote (pyReplace dn.1 lr rrf)])
      set res := (dn.2.filesOf).foldl
        (l2r_fileStep ow dr restr (pyReplace dn.1 lr rrf)
          (rfs.fileNames (pyReplace dn.1 lr rrf)))
        (rfs, tr ++ [Action.cwdRemote (pyReplace dn.1 lr rrf)]) with hres

      obtain ⟨k, hk, hkok⟩ := ih res.2 res.1
      refine ⟨k + 1, ?_, ?_⟩
      · rw [hk, hl]
        simp only [remoteDirsUsed_append, remoteDirsUsed_stor_nil l hp, List.append_nil,
          List.map_cons, List.take_succ_cons]
        simp [remoteDirsUsed]
      · intro rfs' h
        rw [List.map_cons, List.take_succ_cons, hkok rfs' h]
    · split
      · -- dry run, missing directory: error, nothing more happens
        refine ⟨0, ?_, ?_⟩
        · rw [l2r_fold_error]
          simp
        · intro rfs' h
          rw [l2r_fold_error] at h
          simp at h
      · -- create the directory, then continue
        obtain ⟨l, hl, hp⟩ := l2r_fileFold_trace ow dr restr (pyReplace dn.1 lr rrf)
          (RemoteFS.fileNames { rfs with dirs := rfs.dirs ++ [pyReplace dn.1 lr rrf] }
            (pyReplace dn.1 lr rrf)) dn.2.filesOf
          ({ rfs with dirs := rfs.dirs ++ [pyReplace dn.1 lr rrf] },
           tr ++ [Action.mkd (pyReplace dn.1 lr rrf)])
        set res := (dn.2.filesOf).foldl
          (l2r_fileStep ow dr restr (pyReplace dn.1 lr rrf)
            (RemoteFS.fileNames { rfs with dirs := rfs.dirs ++ [pyReplace dn.1 lr rrf] }
              (pyReplace dn.1 lr rrf)))
          ({ rfs with dirs := rfs.dirs ++ [pyReplace dn.1 lr rrf] },
           tr ++ [Action.mkd (pyReplace dn.1 lr rrf)]) with hres
        obtain ⟨k, hk, hkok⟩ := ih res.2 res.1
        refine ⟨k + 1, ?_, ?_⟩
        · rw [hk, hl]
          simp only [remoteDirsUsed_append, remoteDirsUsed_stor_nil l hp, List.append_nil,
            List.map_cons, List.take_succ_cons]
          simp [remoteDirsUsed]
        · intro rfs' h
          rw [List.map_cons, List.take_succ_cons, hkok rfs' h]

/- ---------------------------------------------------------------- -/
/- Per-file download gating lemmas                                   -/
/- ---------------------------------------------------------------- -/

/-- An existing local target with overwriting disabled is skipped before
anything else is considered: the step has no effect at all. -/
theorem copyFileStep_skip_existing (dr : Bool) (restr : List String) (ld : String)
    (acc : LocalFS × List Action) (f : String × String)
    (hex : acc.1.pathExists (pjoin ld f.1)) :
    copyFileStep false dr restr ld acc f = acc := by
  simp only [copyFileStep]
  split
  · rfl
  · split
    · rfl
    next h =>
      exfalso
      exact h ⟨by trivial, hex⟩

/-- A non-hidden, extension-eligible file is retrieved whenever the
overwrite flag is set or the target does not exist; with the flag set the
target's existence is never consulted. -/
theorem copyFileStep_retr (ow : Bool) (restr : List String) (ld : String)
    (acc : LocalFS × List Action) (f : String × String)
    (hdot : startsWithDot f.1 = false)
    (hov : ow = true ∨ ¬ acc.1.pathExists (pjoin ld f.1))
    (hel : lastSplitDot (pjoin ld f.1) ∈ restr ∨ restr = []) :
    copyFileStep ow false restr ld acc f =
      (acc.1.writeFile (pjoin ld f.1) f.2, acc.2 ++ [Action.retr f.1 (pjoin ld f.1)]) := by
  simp only [copyFileStep]
  rw [if_neg (by simp [hdot])]
  rw [if_neg ?_]
  · rw [if_pos hel]
    simp
  · rintro ⟨how, hex⟩
    rcases hov with h | h
    · rw [h] at how
      simp at how
    · exact h hex

/-- A file that fails the extension test is never retrieved, whatever the
overwrite flag or the target's existence. -/
theorem copyFileStep_ineligible (ow dr : Bool) (restr : List String) (ld : String)
    (acc : LocalFS × List Action) (f : String × String)
    (hel : ¬ (lastSplitDot (pjoin ld f.1) ∈ restr ∨ restr = [])) :
    copyFileStep ow dr restr ld acc f = acc := by
  simp only [copyFileStep]
  split
  · rfl
  · split
    · rfl
    · simp [hel]

/- ---------------------------------------------------------------- -/
/- Idempotence of the download engine                                -/
/- ---------------------------------------------------------------- -/

/-- One local filesystem extends another: every directory of the first
still exists in the second, and so does every file. -/
def fsLe (fs fs' : LocalFS) : Prop :=
  (∀ d ∈ fs.dirs, d ∈ fs'.dirs) ∧
  (∀ p, (∃ q ∈ fs.files, q.1 = p) → ∃ q ∈ fs'.files, q.1 = p)

theorem fsLe_refl (fs : LocalFS) : fsLe fs fs :=
  ⟨fun _ h => h, fun _ h => h⟩

theorem fsLe_trans {fs1 fs2 fs3 : LocalFS} (h1 : fsLe fs1 fs2) (h2 : fsLe fs2 fs3) :
    fsLe fs1 fs3 :=
  ⟨fun d hd => h2.1 d (h1.1 d hd), fun p hp => h2.2 p (h1.2 p hp)⟩

theorem pathExists_mono {fs fs' : LocalFS} (h : fsLe fs fs') (p : String)
    (hp : fs.pathExists p) : fs'.pathExists p := by
  rcases hp with hd | hf
  · exact Or.inl (h.1 p hd)
  · exact Or.inr (h.2 p hf)

theorem foldl_ins_preserve :
    ∀ (l : List String) (ds : List String) (x : String), x ∈ ds →
      x ∈ l.foldl (fun ds d => if d ∈ ds then ds else ds ++ [d]) ds := by
  intro l
  induction l with
  | nil => intro ds x hx; exact hx
  | cons d rest ih =>
    intro ds x hx
    rw [List.foldl_cons]
    apply ih
    by_cases hd : d ∈ ds
    · rw [if_pos hd]; exact hx
    · rw [if_neg hd]; exact List.mem_append_left _ hx

theorem foldl_ins_new :
    ∀ (l : List String) (ds : List String) (x : String), x ∈ l →
      x ∈ l.foldl (fun ds d => if d ∈ ds then ds else ds ++ [d]) ds := by
  intro l
  induction l with
  | nil => intro ds x hx; simp at hx
  | cons d rest ih =>
    intro ds x hx
    rw [List.foldl_cons]
    rcases List.mem_cons.mp hx with h | h
    · subst h
      apply foldl_ins_preserve
      by_cases hd : x ∈ ds
      · rw [if_pos hd]; exact hd
      · rw [if_neg hd]; exact List.mem_append_right _ (List.mem_singleton.mpr rfl)
    · exact ih _ x h

theorem foldl_ins_fixed :
    ∀ (l : List String) (ds : List String), (∀ d ∈ l, d ∈ ds) →
      l.foldl (fun ds d => if d ∈ ds then ds else ds ++ [d]) ds = ds := by
  intro l
  induction l with
  | nil => intro ds _; rfl
  | cons d rest ih =>
    intro ds h
    rw [List.foldl_cons, if_pos (h d (List.mem_cons_self _ _))]
    exact ih ds (fun d' hd' => h d' (List.mem_cons_of_mem _ hd'))

theorem makedirs_fsLe (fs : LocalFS) (p : String) : fsLe fs (fs.makedirs p) :=
  ⟨fun d hd => foldl_ins_preserve _ _ d hd, fun _ h => h⟩

theorem makedirs_hasDirs (fs : LocalFS) (p : String) :
    ∀ d ∈ dirChain p, d ∈ (fs.makedirs p).dirs := by
  intro d hd
  exact foldl_ins_new _ _ d hd

theorem makedirs_fixed (fs : LocalFS) (p : String)
    (h : ∀ d ∈ dirChain p, d ∈ fs.dirs) : fs.makedirs p = fs := by
  cases fs with
  | mk ds fls =>
    simp only [LocalFS.makedirs]
    rw [foldl_ins_fixed _ _ h]

theorem setAssoc_keys (l : List (String × String)) (k v x : String)
    (hx : ∃ q ∈ l, q.1 = x) : ∃ q ∈ setAssoc l k v, q.1 = x := by
  obtain ⟨q0, hq0, hq0x⟩ := hx
  unfold setAssoc
  split
  · by_cases hqk : q0.1 = k
    · exact ⟨(k, v), List.mem_map.mpr ⟨q0, hq0, by simp [hqk]⟩, by rw [← hqk, hq0x]⟩
    · exact ⟨q0, List.mem_map.mpr ⟨q0, hq0, by simp [hqk]⟩, hq0x⟩
  · exact ⟨q0, List.mem_append_left _ hq0, hq0x⟩

theorem setAssoc_hasKey (l : List (String × String)) (k v : String) :
    ∃ q ∈ setAssoc l k v, q.1 = k := by
  unfold setAssoc
  split
  next h =>
    obtain ⟨q0, hq0, hq0k⟩ := h
    exact ⟨(k, v), List.mem_map.mpr ⟨q0, hq0, by simp [hq0k]⟩, rfl⟩
  · exact ⟨(k, v), List.mem_append_right _ (List.mem_singleton.mpr rfl), rfl⟩

theorem writeFile_fsLe (fs : LocalFS) (p c : String) : fsLe fs (fs.writeFile p c) :=
  ⟨fun _ h => h, fun x hx => setAssoc_keys fs.files p c x hx⟩

theorem writeFile_pathExists (fs : LocalFS) (p c : String) :
    (fs.writeFile p c).pathExists p :=
  Or.inr (setAssoc_hasKey fs.files p c)

theorem copyFileStep_state (ow dr : Bool) (restr : List String) (ld : String)
    (acc : LocalFS × List Action) (f : String × String) :
    (copyFileStep ow dr restr ld acc f).1 = acc.1 ∨
    (copyFileStep ow dr restr ld acc f).1 = acc.1.writeFile (pjoin ld f.1) f.2 := by
  simp only [copyFileStep]
  split
  · left; rfl
  · split
    · left; rfl
    · split
      · split
        · left; rfl
        · right; rfl
      · left; rfl

theorem copyFileStep_fsLe (ow dr : Bool) (restr : List String) (ld : String)
    (acc : LocalFS × List Action) (f : String × String) :
    fsLe acc.1 (copyFileStep ow dr restr ld acc f).1 := by
  rcases copyFileStep_state ow dr restr ld acc f with h | h
  · rw [h]; exact fsLe_refl _
  · rw [h]; exact writeFile_fsLe _ _ _

theorem copyFileFold_fsLe (ow dr : Bool) (restr : List String) (ld : String) :
    ∀ (files : List (String × String)) (acc : LocalFS × List Action),
      fsLe acc.1 ((files.foldl (copyFileStep ow dr restr ld) acc).1) := by
  intro files
  induction files with
  | nil => intro acc; exact fsLe_refl _
  | cons f rest ih =>
    intro acc
    rw [List.foldl_cons]
    exact fsLe_trans (copyFileStep_fsLe ow dr restr ld acc f) (ih _)

theorem r2l_dirStep_fsLe (ow : Bool) (restr : List String) (rr lrf : String)
    (acc : LocalFS × List Action) (dn : String × DirTree) :
    fsLe acc.1 ((r2l_dirStep ow false restr rr lrf acc dn).1) := by
  rw [r2l_dirStep_eq]
  exact fsLe_trans (makedirs_fsLe acc.1 (pyReplace dn.1 rr lrf))
    (copyFileFold_fsLe ow false restr (pyReplace dn.1 rr lrf) dn.2.filesOf
      (acc.1.makedirs (pyReplace dn.1 rr lrf),
       acc.2 ++ [Action.makedirs (pyReplace dn.1 rr lrf), Action.cwdRemote dn.1]))

theorem r2l_fold_fsLe (ow : Bool) (restr : List String) (rr lrf : String) :
    ∀ (P : List (String × DirTree)) (acc : LocalFS × List Action),
      fsLe acc.1 ((P.foldl (r2l_dirStep ow false restr rr lrf) acc).1) := by
  intro P
  induction P with
  | nil => intro acc; exact fsLe_refl _
  | cons dn rest ih =>
    intro acc
    rw [List.foldl_cons]
    exact fsLe_trans (r2l_dirStep_fsLe ow restr rr lrf acc dn) (ih _)

/-- What one completed directory visit of a non-dry, non-overwriting
download run guarantees about the local filesystem: the mapped directory
chain exists, and every non-hidden, extension-eligible file of the
listing exists locally. -/
def r2lDone (restr : List String) (rr lrf : String) (fs : LocalFS)
    (dn : String × DirTree) : Prop :=
  (∀ d ∈ dirChain (pyReplace dn.1 rr lrf), d ∈ fs.dirs) ∧
  ∀ f ∈ dn.2.filesOf, startsWithDot f.1 = false →
    (lastSplitDot (pjoin (pyReplace dn.1 rr lrf) f.1) ∈ restr ∨ restr = []) →
    fs.pathExists (pjoin (pyReplace dn.1 rr lrf) f.1)

theorem r2lDone_mono (restr : List String) (rr lrf : String) {fs fs' : LocalFS}
    (h : fsLe fs fs') (dn : String × DirTree) (hd : r2lDone restr rr lrf fs dn) :
    r2lDone restr rr lrf fs' dn := by
  refine ⟨fun d hdd => h.1 d (hd.1 d hdd), ?_⟩
  intro f hf h1 h2
  exact pathExists_mono h _ (hd.2 f hf h1 h2)

theorem copyFileFold_post (restr : List String) (ld : String) :
    ∀ (files : List (String × String)) (acc : LocalFS × List Action),
      ∀ f ∈ files, startsWithDot f.1 = false →
        (lastSplitDot (pjoin ld f.1) ∈ restr ∨ restr = []) →
        ((files.foldl (copyFileStep false false restr ld) acc).1).pathExists (pjoin ld f.1) := by
  intro files
  induction files with
  | nil =>
    intro acc f hf
    simp at hf
  | cons f0 rest ih =>
    intro acc f hf hdot hel
    rw [List.foldl_cons]
    rcases List.mem_cons.mp hf with h | h
    · subst h
      by_cases hex : acc.1.pathExists (pjoin ld f.1)
      · have hstate : (copyFileStep false false restr ld acc f).1 = acc.1 ∨
            (copyFileStep false false restr ld acc f).1 =
              acc.1.writeFile (pjoin ld f.1) f.2 :=
          copyFileStep_state false false restr ld acc f
        apply pathExists_mono (copyFileFold_fsLe false false restr ld rest _) _
        rcases hstate with hs | hs
        · rw [hs]; exact hex
        · rw [hs]
          exact pathExists_mono (writeFile_fsLe _ _ _) _ hex
      · rw [copyFileStep_retr false restr ld acc f hdot (Or.inr hex) hel]
        apply pathExists_mono (copyFileFold_fsLe false false restr ld rest _) _
        exact writeFile_pathExists _ _ _
    · exact ih _ f h hdot hel

theorem r2l_dirStep_post (restr : List String) (rr lrf : String)
    (acc : LocalFS × List Action) (dn : String × DirTree) :
    r2lDone restr rr lrf ((r2l_dirStep false false restr rr lrf acc dn).1) dn := by
  rw [r2l_dirStep_eq]
  constructor
  · intro d hd
    have h1 := makedirs_hasDirs acc.1 (pyReplace dn.1 rr lrf) d hd
    exact (copyFileFold_fsLe false false restr (pyReplace dn.1 rr lrf) dn.2.filesOf _).1 d h1
  · intro f hf hdot hel
    exact copyFileFold_post restr (pyReplace dn.1 rr lrf) dn.2.filesOf _ f hf hdot hel

theorem r2l_fold_post (restr : List String) (rr lrf : String) :
    ∀ (P : List (String × DirTree)) (acc : LocalFS × List Action),
      ∀ dn ∈ P, r2lDone restr rr lrf ((P.foldl (r2l_dirStep false false restr rr lrf) acc).1) dn := by
  intro P
  induction P with
  | nil =>
    intro acc dn hdn
    simp at hdn
  | cons dn0 rest ih =>
    intro acc dn hdn
    rw [List.foldl_cons]
    rcases List.mem_cons.mp hdn with h | h
    · subst h
      exact r2lDone_mono restr rr lrf (r2l_fold_fsLe false restr rr lrf rest _) dn
        (r2l_dirStep_post restr rr lrf acc dn)
    · exact ih _ dn h

theorem copyFileStep_noop (restr : List String) (ld : String)
    (acc : LocalFS × List Action) (f : String × String)
    (h : startsWithDot f.1 = false →
      (lastSplitDot (pjoin ld f.1) ∈ restr ∨ restr = []) →
      acc.1.pathExists (pjoin ld f.1)) :
    copyFileStep false false restr ld acc f = acc := by
  by_cases hdot : startsWithDot f.1
  · simp only [copyFileStep]
    rw [if_pos hdot]
  · by_cases hex : acc.1.pathExists (pjoin ld f.1)
    · exact copyFileStep_skip_existing false restr ld acc f hex
    · by_cases hel : lastSplitDot (pjoin ld f.1) ∈ restr ∨ restr = []
      · exact absurd (h (by simpa using hdot) hel) hex
      · exact copyFileStep_ineligible false false restr ld acc f hel

theorem copyFileFold_noop (restr : List String) (ld : String) :
    ∀ (files : List (String × String)) (acc : LocalFS × List Action),
      (∀ f ∈ files, startsWithDot f.1 = false →
        (lastSplitDot (pjoin ld f.1) ∈ restr ∨ restr = []) →
        acc.1.pathExists (pjoin ld f.1)) →
      files.foldl (copyFileStep false false restr ld) acc = acc := by
  intro files
  induction files with
  | nil => intro acc _; rfl
  | cons f rest ih =>
    intro acc h
    rw [List.foldl_cons, copyFileStep_noop restr ld acc f (h f (List.mem_cons_self _ _)), ih]
    intro f' hf'
    exact h f' (List.mem_cons_of_mem _ hf')

theorem r2l_dirStep_noop (restr : List String) (rr lrf : String)
    (acc : LocalFS × List Action) (dn : String × DirTree)
    (h : r2lDone restr rr lrf acc.1 dn) :
    (r2l_dirStep false false restr rr lrf acc dn).1 = acc.1 := by
  rw [r2l_dirStep_eq]
  rw [makedirs_fixed acc.1 (pyReplace dn.1 rr lrf) h.1]
  rw [copyFileFold_noop restr (pyReplace dn.1 rr lrf) dn.2.filesOf _ ?_]
  intro f hf hdot hel
  exact h.2 f hf hdot hel

theorem r2l_fold_noop (restr : List String) (rr lrf : String) :
    ∀ (P : List (String × DirTree)) (acc : LocalFS × List Action),
      (∀ dn ∈ P, r2lDone restr rr lrf acc.1 dn) →
      (P.foldl (r2l_dirStep false false restr rr lrf) acc).1 = acc.1 := by
  intro P
  induction P with
  | nil => intro acc _; rfl
  | cons dn rest ih =>
    intro acc h
    rw [List.foldl_cons]
    have hstate := r2l_dirStep_noop restr rr lrf acc dn (h dn (List.mem_cons_self _ _))
    rw [ih _ ?_, hstate]
    intro dn' hdn'
    rw [hstate]
    exact h dn' (List.mem_cons_of_mem _ hdn')

/- ---------------------------------------------------------------- -/
/- Splitting and path-segment lemmas                                 -/
/- ---------------------------------------------------------------- -/

theorem splitChar_ne_nil (sep : Char) : ∀ cs, splitChar sep cs ≠ [] := by
  intro cs
  induction cs with
  | nil => simp [splitChar]
  | cons c rest ih =>
    simp only [splitChar]
    split
    · simp
    · split
      · simp_all
      · simp

theorem getLastD_indep {α : Type} (l : List α) (d d' : α) (h : l ≠ []) :
    l.getLastD d = l.getLastD d' := by
  rw [List.getLastD_eq_getLast?, List.getLastD_eq_getLast?, List.getLast?_eq_getLast l h]
  rfl

theorem splitChar_no_sep (sep : Char) : ∀ cs, sep ∉ cs → splitChar sep cs = [cs] := by
  intro cs
  induction cs with
  | nil => intro _; rfl
  | cons c rest ih =>
    intro h
    have hc : ¬ c = sep := fun hc => h (hc ▸ List.mem_cons_self _ _)
    have hrest : sep ∉ rest := fun hr => h (List.mem_cons_of_mem _ hr)
    simp only [splitChar, if_neg hc, ih hrest]

theorem splitChar_cons_sep (sep : Char) (rest : List Char) :
    splitChar sep (sep :: rest) = [] :: splitChar sep rest := by
  simp [splitChar]

theorem splitChar_cons_ne (sep c : Char) (rest : List Char) (h : ¬ c = sep) :
    splitChar sep (c :: rest) =
      match splitChar sep rest with
      | [] => [[c]]
      | s :: ss => (c :: s) :: ss := by
  simp [splitChar, h]

theorem splitChar_append_sep (sep : Char) :
    ∀ as bs, splitChar sep (as ++ sep :: bs) = splitChar sep as ++ splitChar sep bs := by
  intro as bs
  induction as with
  | nil => simp [splitChar]
  | cons a as' ih =>
    rw [List.cons_append]
    by_cases ha : a = sep
    · subst ha
      rw [splitChar_cons_sep, splitChar_cons_sep, ih]
      rfl
    · rw [splitChar_cons_ne sep a _ ha, splitChar_cons_ne sep a _ ha, ih]
      obtain ⟨s, ss, hs⟩ : ∃ s ss, splitChar sep as' = s :: ss := by
        cases h : splitChar sep as' with
        | nil => exact absurd h (splitChar_ne_nil sep as')
        | cons s ss => exact ⟨s, ss, rfl⟩
      rw [hs]
      rfl

/-- A path that starts with a slash keeps that property when a clean name
is joined onto it. -/
theorem headIsSlash_append (a b : String) (ha : a.data ≠ []) :
    headIsSlash (a ++ b) = headIsSlash a := by
  unfold headIsSlash
  rw [String.data_append]
  cases hd : a.data with
  | nil => exact absurd hd ha
  | cons c rest => rfl

/-- The data of a one-character-joined path. -/
theorem pjoin_data_slash (a b : String) (hb : headIsSlash b = false) (ha : a = "" → False)
    (hla : lastIsSlash a = false) :
    (pjoin a b).data = a.data ++ '/' :: b.data := by
  unfold pjoin
  rw [hb]
  simp only [Bool.false_eq_true, if_false]
  rw [if_neg ?_]
  · rw [String.data_append, String.data_append]
    have hd : ("/" : String).data = ['/'] := rfl
    rw [hd, List.append_assoc]
    rfl
  · rintro (h | h)
    · exact ha h
    · rw [h] at hla
      simp at hla

/- ---------------------------------------------------------------- -/
/- Well-formed filesystem trees (for the working-directory model)    -/
/- ---------------------------------------------------------------- -/

/-- An entry name a POSIX filesystem can actually hold: non-empty, free of
the separator, and none of the two reserved names. -/
def cleanNameB (n : String) : Bool :=
  !n.data.isEmpty && !n.data.contains '/' && !(n.data == ['.']) && !(n.data == ['.', '.'])

mutual

/-- A well-formed filesystem tree: inside every directory the entry names
are pairwise distinct and every name is one a filesystem can hold. -/
def cleanTreeB : DirTree → Bool
  | .node files subdirs =>
    decide ((files.map Prod.fst ++ subdirs.map Prod.fst).Nodup) &&
      files.all (fun q => cleanNameB q.1) && cleanSubsB subdirs

/-- Well-formedness of a named-subtree list. -/
def cleanSubsB : List (String × DirTree) → Bool
  | [] => true
  | (n, t) :: rest => cleanNameB n && cleanTreeB t && cleanSubsB rest

end

theorem cleanSubsB_mem {l : List (String × DirTree)} (h : cleanSubsB l = true) :
    ∀ q ∈ l, cleanNameB q.1 = true ∧ cleanTreeB q.2 = true := by
  induction l with
  | nil => intro q hq; simp at hq
  | cons p rest ih =>
    obtain ⟨n, t⟩ := p
    simp only [cleanSubsB, Bool.and_eq_true] at h
    intro q hq
    rcases List.mem_cons.mp hq with h' | h'
    · subst h'
      exact ⟨h.1.1, h.1.2⟩
    · exact ih h.2 q h'

theorem cleanTreeB_node {files : List (String × String)} {subdirs : List (String × DirTree)}
    (h : cleanTreeB (.node files subdirs) = true) :
    (files.map Prod.fst ++ subdirs.map Prod.fst).Nodup ∧
    (∀ q ∈ files, cleanNameB q.1 = true) ∧ cleanSubsB subdirs = true := by
  simp only [cleanTreeB, Bool.and_eq_true, decide_eq_true_eq, List.all_eq_true] at h
  exact ⟨h.1.1, h.1.2, h.2⟩

theorem cleanNameB_elim {n : String} (h : cleanNameB n = true) :
    n.data ≠ [] ∧ '/' ∉ n.data ∧ n.data ≠ ['.'] := by
  simp only [cleanNameB, Bool.and_eq_true, Bool.not_eq_true'] at h
  obtain ⟨⟨⟨hemp, hcont⟩, hdot⟩, _⟩ := h
  refine ⟨?_, ?_, ?_⟩
  · intro he
    rw [he] at hemp
    simp at hemp
  · intro hm
    simp only [List.contains_eq_any_beq, List.any_eq_false] at hcont
    exact hcont '/' hm (by simp)
  · intro he
    rw [he] at hdot
    simp at hdot

/-- A clean name does not start with the separator. -/
theorem cleanNameB_headIsSlash {n : String} (h : cleanNameB n = true) :
    headIsSlash n = false := by
  obtain ⟨hne, hsl, _⟩ := cleanNameB_elim h
  unfold headIsSlash
  cases hd : n.data with
  | nil => rfl
  | cons c rest =>
    have : c ≠ '/' := by
      intro hc
      apply hsl
      rw [hd, hc]
      exact List.mem_cons_self _ _
    simp [this]

/-- The segment list of a clean name is the single segment of its
characters. -/
theorem pathSegs_clean {n : String} (h : cleanNameB n = true) :
    pathSegs n = [n.data] := by
  obtain ⟨hne, hsl, hdot⟩ := cleanNameB_elim h
  unfold pathSegs
  rw [splitChar_no_sep '/' n.data hsl]
  simp [hne, hdot]

/-- Segments of a joined path: joining a clean name appends one
segment. -/
theorem pathSegs_pjoin {a n : String} (ha : headIsSlash a = true)
    (hn : cleanNameB n = true) :
    pathSegs (pjoin a n) = pathSegs a ++ [n.data] := by
  have hnslash : headIsSlash n = false := cleanNameB_headIsSlash hn
  obtain ⟨hne, hsl, hdot⟩ := cleanNameB_elim hn
  have hane : a.data ≠ [] := by
    intro he
    unfold headIsSlash at ha
    rw [he] at ha
    simp at ha
  by_cases hla : lastIsSlash a
  · -- a already ends in the separator: plain concatenation
    have hj : pjoin a n = a ++ n := by
      unfold pjoin
      rw [hnslash]
      simp only [Bool.false_eq_true, if_false]
      rw [if_pos (Or.inr hla)]
    obtain ⟨xs, hxs⟩ : ∃ xs, a.data = xs ++ ['/'] := by
      unfold lastIsSlash at hla
      cases hg : a.data.getLast? with
      | none => rw [hg] at hla; simp at hla
      | some c =>
        rw [hg] at hla
        simp only [decide_eq_true_eq] at hla
        subst hla
        refine ⟨a.data.dropLast, ?_⟩
        have := List.dropLast_append_getLast hane
        rw [List.getLast?_eq_getLast _ hane] at hg
        injection hg with hg
        rw [hg] at this
        exact this.symm
    unfold pathSegs
    rw [hj, String.data_append, hxs, List.append_assoc, List.singleton_append,
      splitChar_append_sep, splitChar_no_sep '/' n.data hsl]
    have h2 : splitChar '/' (xs ++ ['/']) = splitChar '/' xs ++ [[]] := by
      have he : (['/'] : List Char) = '/' :: ([] : List Char) := rfl
      rw [he, splitChar_append_sep]
      rfl
    rw [h2, List.filter_append, List.filter_append]
    simp [hne, hdot]
  · -- a does not end in the separator: one is inserted
    have hj := pjoin_data_slash a n hnslash
      (fun he => hane (by rw [he])) (by simpa using hla)
    unfold pathSegs
    rw [hj, splitChar_append_sep, splitChar_no_sep '/' n.data hsl, List.filter_append]
    simp [hne, hdot]

/-- Joining a clean name preserves absoluteness. -/
theorem headIsSlash_pjoin {a n : String} (ha : headIsSlash a = true)
    (hn : cleanNameB n = true) :
    headIsSlash (pjoin a n) = true := by
  have hnslash : headIsSlash n = false := cleanNameB_headIsSlash hn
  have hane : a.data ≠ [] := by
    intro he
    unfold headIsSlash at ha
    rw [he] at ha
    simp at ha
  unfold pjoin
  rw [hnslash]
  simp only [Bool.false_eq_true, if_false]
  split
  · rw [headIsSlash_append a n hane]
    exact ha
  · have hd : (a ++ "/").data ≠ [] := by
      rw [String.data_append]
      simp [hane]
    rw [headIsSlash_append (a ++ "/") n hd, headIsSlash_append a "/" hane]
    exact ha

/-- Looking up a concatenated segment list runs the two lookups in
sequence. -/
theorem lookupDir_nil (t : DirTree) : lookupDir t [] = some t := by
  cases t with
  | node files subdirs => rfl

theorem lookupDir_append :
    ∀ (xs ys : List (List Char)) (t : DirTree),
      lookupDir t (xs ++ ys) = (lookupDir t xs).bind (fun t' => lookupDir t' ys) := by
  intro xs
  induction xs with
  | nil =>
    intro ys t
    rw [List.nil_append, lookupDir_nil, Option.some_bind]
  | cons seg xs' ih =>
    intro ys t
    cases t with
    | node files subdirs =>
      rw [List.cons_append]
      simp only [lookupDir]
      cases hf : subdirs.find? (fun q => q.1.data == seg) with
      | none => rfl
      | some q => exact ih ys q.2

/-- Every directory reachable in a well-formed tree is itself
well-formed. -/
theorem cleanTreeB_lookup :
    ∀ (segs : List (List Char)) (t t' : DirTree), cleanTreeB t = true →
      lookupDir t segs = some t' → cleanTreeB t' = true := by
  intro segs
  induction segs with
  | nil =>
    intro t t' ht h
    rw [lookupDir_nil] at h
    injection h with h
    rw [← h]
    exact ht
  | cons seg rest ih =>
    intro t t' ht h
    cases t with
    | node files subdirs =>
      simp only [lookupDir] at h
      cases hf : subdirs.find? (fun q => q.1.data == seg) with
      | none => rw [hf] at h; simp at h
      | some q =>
        rw [hf] at h
        have hq := List.mem_of_find?_eq_some hf
        have hclean := (cleanSubsB_mem (cleanTreeB_node ht).2.2 q hq).2
        exact ih q.2 t' hclean h

/- ---------------------------------------------------------------- -/
/- Properties of the working-directory walker                        -/
/- ---------------------------------------------------------------- -/

/-- In a completed run the `os.chdir` calls are exactly the dequeued
directories: the seed queue followed by everything the walk yielded. -/
theorem walkLocalCwdAux_chdirs (fs : DirTree) :
    ∀ (fuel : Nat) (q : List String) (cwd : List (List Char)),
      (walkLocalCwdAux fs fuel q cwd).ok = true →
      (walkLocalCwdAux fs fuel q cwd).chdirs = q ++ (walkLocalCwdAux fs fuel q cwd).yields := by
  intro fuel
  induction fuel with
  | zero =>
    intro q cwd hok
    cases q with
    | nil => rfl
    | cons cur rest => simp [walkLocalCwdAux] at hok
  | succ fuel ih =>
    intro q cwd hok
    cases q with
    | nil => rfl
    | cons cur rest =>
      revert hok
      simp only [walkLocalCwdAux]
      cases h1 : lookupDir fs (resolvePath cwd cur) with
      | none => intro hok; simp at hok
      | some t0 =>
        cases h2 : lookupDir fs (resolvePath (resolvePath cwd cur) cur) with
        | none => intro hok; simp at hok
        | some t1 =>
          cases t1 with
          | node files subdirs =>
            intro hok
            simp only at hok ⊢
            rw [ih _ _ hok]
            simp [List.append_assoc]

/-- In a completed run the final working directory is the fold of path
resolution over the `os.chdir` arguments. -/
theorem walkLocalCwdAux_cwd (fs : DirTree) :
    ∀ (fuel : Nat) (q : List String) (cwd : List (List Char)),
      (walkLocalCwdAux fs fuel q cwd).ok = true →
      (walkLocalCwdAux fs fuel q cwd).cwd =
        (walkLocalCwdAux fs fuel q cwd).chdirs.foldl resolvePath cwd := by
  intro fuel
  induction fuel with
  | zero =>
    intro q cwd hok
    cases q with
    | nil => rfl
    | cons cur rest => simp [walkLocalCwdAux] at hok
  | succ fuel ih =>
    intro q cwd hok
    cases q with
    | nil => rfl
    | cons cur rest =>
      revert hok
      simp only [walkLocalCwdAux]
      cases h1 : lookupDir fs (resolvePath cwd cur) with
      | none => intro hok; simp at hok
      | some t0 =>
        cases h2 : lookupDir fs (resolvePath (resolvePath cwd cur) cur) with
        | none => intro hok; simp at hok
        | some t1 =>
          cases t1 with
          | node files subdirs =>
            intro hok
            simp only at hok ⊢
            rw [List.foldl_cons]
            exact ih _ _ hok

/-- A fold of path resolution ending in an absolute path lands on that
path's segments, whatever came before. -/
theorem foldl_resolve_last_abs (x : String) (hx : headIsSlash x = true)
    (l : List String) (c0 : List (List Char)) :
    (l ++ [x]).foldl resolvePath c0 = pathSegs x := by
  rw [List.foldl_append]
  simp [resolvePath, hx]

/-- A string with no dot is its own last dot-split segment: the
"extension" the engine tests is then the entire string. -/
theorem lastSplitDot_no_dot (s : String) (h : '.' ∉ s.data) : lastSplitDot s = s := by
  unfold lastSplitDot
  rw [splitChar_no_sep '.' s.data h]
  rfl

theorem splitChar_length_append (sep : Char) :
    ∀ as bs, sep ∉ bs →
      (splitChar sep (as ++ bs)).length = (splitChar sep as).length := by
  intro as bs hbs
  induction as with
  | nil =>
    rw [List.nil_append, splitChar_no_sep sep bs hbs]
    rfl
  | cons a as' ih =>
    rw [List.cons_append]
    by_cases ha : a = sep
    · subst ha
      rw [splitChar_cons_sep, splitChar_cons_sep]
      simp [ih]
    · rw [splitChar_cons_ne sep a _ ha, splitChar_cons_ne sep a _ ha]
      obtain ⟨s, ss, hs⟩ : ∃ s ss, splitChar sep as' = s :: ss := by
        cases h : splitChar sep as' with
        | nil => exact absurd h (splitChar_ne_nil sep as')
        | cons s ss => exact ⟨s, ss, rfl⟩
      obtain ⟨u, us, hu⟩ : ∃ u us, splitChar sep (as' ++ bs) = u :: us := by
        cases h : splitChar sep (as' ++ bs) with
        | nil => exact absurd h (splitChar_ne_nil sep _)
        | cons u us => exact ⟨u, us, rfl⟩
      rw [hs, hu]
      have := ih
      rw [hs, hu] at this
      simpa using this

/-- Splitting a concatenation whose right half holds no separator: the
right half fuses onto the last segment of the left half. -/
theorem splitChar_getLastD_append (sep : Char) :
    ∀ as bs, sep ∉ bs →
      (splitChar sep (as ++ bs)).getLastD [] =
        (splitChar sep as).getLastD [] ++ bs := by
  intro as
  induction as with
  | nil =>
    intro bs hbs
    rw [List.nil_append, splitChar_no_sep sep bs hbs]
    rfl
  | cons a as' ih =>
    intro bs hbs
    rw [List.cons_append]
    by_cases ha : a = sep
    · subst ha
      rw [splitChar_cons_sep, splitChar_cons_sep, List.getLastD_cons, List.getLastD_cons]
      exact ih bs hbs
    · obtain ⟨s, ss, hs⟩ : ∃ s ss, splitChar sep as' = s :: ss := by
        cases h : splitChar sep as' with
        | nil => exact absurd h (splitChar_ne_nil sep as')
        | cons s ss => exact ⟨s, ss, rfl⟩
      obtain ⟨u, us, hu⟩ : ∃ u us, splitChar sep (as' ++ bs) = u :: us := by
        cases h : splitChar sep (as' ++ bs) with
        | nil => exact absurd h (splitChar_ne_nil sep _)
        | cons u us => exact ⟨u, us, rfl⟩
      have hredL : splitChar sep (a :: (as' ++ bs)) = (a :: u) :: us := by
        rw [splitChar_cons_ne sep a _ ha, hu]
      have hredR : splitChar sep (a :: as') = (a :: s) :: ss := by
        rw [splitChar_cons_ne sep a _ ha, hs]
      rw [hredL, hredR, List.getLastD_cons, List.getLastD_cons]
      have hlen : us.length = ss.length := by
        have hl := splitChar_length_append sep as' bs hbs
        rw [hs, hu] at hl
        simpa using hl
      have hihr := ih bs hbs
      rw [hs, hu, List.getLastD_cons, List.getLastD_cons] at hihr
      cases ss with
      | nil =>
        cases us with
        | nil =>
          simp only [List.getLastD_nil] at hihr ⊢
          simp [hihr]
        | cons y ys => simp at hlen
      | cons x xs =>
        cases us with
        | nil => simp at hlen
        | cons y ys =>
          have h1 : (y :: ys).getLastD (a :: u) = (y :: ys).getLastD u :=
            getLastD_indep _ _ _ (by simp)
          have h2 : (x :: xs).getLastD (a :: s) = (x :: xs).getLastD s :=
            getLastD_indep _ _ _ (by simp)
          rw [h1, h2]
          exact hihr

/-- Joining a dotless file name onto a directory path with an inserted
slash: the tested "extension" of the full path is the extension of the
directory path with the file name fused on — it is derived from the
directory, not from the file name. -/
theorem lastSplitDot_dotless_join (D n : String) (hn : '.' ∉ n.data)
    (hnslash : headIsSlash n = false) (hD : D = "" → False)
    (hDl : lastIsSlash D = false) :
    lastSplitDot (pjoin D n) = lastSplitDot D ++ "/" ++ n := by
  have hdata := pjoin_data_slash D n hnslash hD hDl
  have hsl : '.' ∉ ('/' :: n.data) := by
    intro hm
    rcases List.mem_cons.mp hm with h | h
    · exact absurd h.symm (by decide)
    · exact hn h
  unfold lastSplitDot
  apply String.ext
  rw [hdata]
  have hmk : ∀ l : List Char, (String.mk l).data = l := fun l => rfl
  rw [hmk, splitChar_getLastD_append '.' D.data ('/' :: n.data) hsl]
  rw [String.data_append, String.data_append, hmk]
  have hslash : ("/" : String).data = ['/'] := rfl
  rw [hslash, List.append_assoc]
  rfl

theorem childPairs_allKeep (p : String × DirTree) :
    childPairs allKeep p = p.2.subdirsOf.map (fun q => (pjoin p.1 q.1, q.2)) := by
  obtain ⟨cur, t⟩ := p
  cases t with
  | node files subdirs => simp [childPairs, allKeep, DirTree.subdirsOf]

/-- Looking up one clean segment under a listed directory is the
subdirectory search of that name. -/
theorem lookupDir_single (fs : DirTree) (base : List (List Char))
    (files : List (String × String)) (subdirs : List (String × DirTree))
    (hbase : lookupDir fs base = some (.node files subdirs)) (seg : List Char) :
    lookupDir fs (base ++ [seg]) =
      (subdirs.find? (fun q => q.1.data == seg)).map (fun q => q.2) := by
  rw [lookupDir_append, hbase, Option.some_bind]
  simp only [lookupDir]
  cases hf : subdirs.find? (fun q => q.1.data == seg) with
  | none => rfl
  | some q => rfl

/-- With an absolute root into a well-formed filesystem, the
working-directory walker runs to completion and yields exactly what the
pure tree walker yields. -/
theorem walkLocalCwdAux_correct (fs : DirTree) (hfs : cleanTreeB fs = true) :
    ∀ (fuel : Nat) (qp : List (String × DirTree)) (cwd : List (List Char)),
      sizeL qp ≤ fuel →
      (∀ p ∈ qp, headIsSlash p.1 = true ∧ lookupDir fs (pathSegs p.1) = some p.2) →
      (walkLocalCwdAux fs fuel (qp.map Prod.fst) cwd).ok = true ∧
      (walkLocalCwdAux fs fuel (qp.map Prod.fst) cwd).yields =
        (walkQueue allKeep qp).map Prod.fst := by
  intro fuel
  induction fuel with
  | zero =>
    intro qp cwd hsz hinv
    cases qp with
    | nil => exact ⟨rfl, by rw [walkQueue_nil]; rfl⟩
    | cons p rest =>
      exfalso
      have := p.2.one_le_size
      rw [sizeL_cons] at hsz
      omega
  | succ fuel ih =>
    intro qp cwd hsz hinv
    cases qp with
    | nil => exact ⟨rfl, by rw [walkQueue_nil]; rfl⟩
    | cons p rest =>
      obtain ⟨cur, t⟩ := p
      obtain ⟨habs, hlook⟩ := hinv (cur, t) (List.mem_cons_self _ _)
      cases t with
      | node files subdirs =>
        have hp := (DirTree.node files subdirs).one_le_size
        have hc := sizeL_childPairs_lt allKeep (cur, DirTree.node files subdirs)
        have ha := sizeL_append rest (childPairs allKeep (cur, DirTree.node files subdirs))
        rw [sizeL_cons] at hsz
        have hres : ∀ c : List (List Char), resolvePath c cur = pathSegs cur := by
          intro c
          simp [resolvePath, habs]
        have hcleant : cleanTreeB (.node files subdirs) = true :=
          cleanTreeB_lookup (pathSegs cur) fs _ hfs hlook
        obtain ⟨hnodup, hfilesclean, hsubsclean⟩ := cleanTreeB_node hcleant
        have hsubnodup : (subdirs.map Prod.fst).Nodup := (List.nodup_append.mp hnodup).2.1
        have hdisj : List.Disjoint (files.map Prod.fst) (subdirs.map Prod.fst) :=
          (List.nodup_append.mp hnodup).2.2
        -- how a bare entry name resolves relative to the directory itself
        have hlookname : ∀ n : String, cleanNameB n = true →
            lookupDir fs (resolvePath (pathSegs cur) n) =
              (subdirs.find? (fun q => q.1.data == n.data)).map (fun q => q.2) := by
          intro n hn
          have h1 : resolvePath (pathSegs cur) n = pathSegs cur ++ [n.data] := by
            unfold resolvePath
            rw [cleanNameB_headIsSlash hn]
            simp only [Bool.false_eq_true, if_false]
            rw [pathSegs_clean hn]
          rw [h1, lookupDir_single fs (pathSegs cur) files subdirs hlook n.data]
        -- the `os.path.isdir` filter keeps exactly the subdirectory names
        have hdirnames : (files.map Prod.fst ++ subdirs.map Prod.fst).filter
            (fun n => (lookupDir fs (resolvePath (pathSegs cur) n)).isSome) =
            subdirs.map Prod.fst := by
          rw [List.filter_append]
          have hfilespart : (files.map Prod.fst).filter
              (fun n => (lookupDir fs (resolvePath (pathSegs cur) n)).isSome) = [] := by
            rw [List.filter_eq_nil_iff]
            intro n hn
            obtain ⟨qf, hqf, rfl⟩ := List.mem_map.mp hn
            rw [hlookname qf.1 (hfilesclean qf hqf)]
            cases hf : subdirs.find? (fun q => q.1.data == qf.1.data) with
            | none => simp
            | some q =>
              exfalso
              have hqmem := List.mem_of_find?_eq_some hf
              have hbeq := List.find?_some hf
              have hqeq : q.1.data = qf.1.data := eq_of_beq (by simpa using hbeq)
              have : qf.1 ∈ subdirs.map Prod.fst := by
                rw [← String.ext hqeq]
                exact List.mem_map_of_mem Prod.fst hqmem
              exact hdisj (List.mem_map_of_mem Prod.fst hqf) this
          have hsubspart : (subdirs.map Prod.fst).filter
              (fun n => (lookupDir fs (resolvePath (pathSegs cur) n)).isSome) =
              subdirs.map Prod.fst := by
            rw [List.filter_eq_self]
            intro n hn
            obtain ⟨qs, hqs, rfl⟩ := List.mem_map.mp hn
            rw [hlookname qs.1 (cleanSubsB_mem hsubsclean qs hqs).1]
            cases hf : subdirs.find? (fun q => q.1.data == qs.1.data) with
            | none =>
              exfalso
              have hself : ((fun q => q.1.data == qs.1.data) qs) = true :=
                beq_self_eq_true qs.1.data
              have hsome : (subdirs.find? (fun q => q.1.data == qs.1.data)).isSome = true :=
                List.find?_isSome.mpr ⟨qs, hqs, hself⟩
              rw [hf] at hsome
              simp at hsome
            | some q => simp
          rw [hfilespart, hsubspart, List.nil_append]
        -- a discovered child pair satisfies the queue invariant
        have hchild : ∀ q ∈ subdirs,
            headIsSlash (pjoin cur q.1) = true ∧
            lookupDir fs (pathSegs (pjoin cur q.1)) = some q.2 := by
          intro q hq
          have hqclean := (cleanSubsB_mem hsubsclean q hq).1
          refine ⟨headIsSlash_pjoin habs hqclean, ?_⟩
          rw [pathSegs_pjoin habs hqclean,
            lookupDir_single fs (pathSegs cur) files subdirs hlook q.1.data]
          cases hf : subdirs.find? (fun q' => q'.1.data == q.1.data) with
          | none =>
            exfalso
            have hself : ((fun q' => q'.1.data == q.1.data) q) = true :=
              beq_self_eq_true q.1.data
            have hsome : (subdirs.find? (fun q' => q'.1.data == q.1.data)).isSome = true :=
              List.find?_isSome.mpr ⟨q, hq, hself⟩
            rw [hf] at hsome
            simp at hsome
          | some q' =>
            have hq'mem := List.mem_of_find?_eq_some hf
            have hbeq := List.find?_some hf
            have hq'eq : q'.1.data = q.1.data := eq_of_beq (by simpa using hbeq)
            have heq : q' = q := List.inj_on_of_nodup_map hsubnodup hq'mem hq
              (String.ext hq'eq)
            rw [Option.map_some', heq]
        -- run one step of the loop
        simp only [List.map_cons, walkLocalCwdAux]
        rw [hres cwd, hlook, hres (pathSegs cur), hlook]
        simp only
        rw [hdirnames]
        -- identify the discovered children with the tree walker's
        have hch : (subdirs.map Prod.fst).map (fun n => pjoin cur n) =
            (childPairs allKeep (cur, DirTree.node files subdirs)).map Prod.fst := by
          rw [childPairs_allKeep]
          simp [DirTree.subdirsOf, List.map_map]
        rw [hch]
        have hqmap : rest.map Prod.fst ++
            (childPairs allKeep (cur, DirTree.node files subdirs)).map Prod.fst =
            (rest ++ childPairs allKeep (cur, DirTree.node files subdirs)).map Prod.fst :=
          (List.map_append _ _ _).symm
        rw [hqmap]
        have hinv2 : ∀ p ∈ rest ++ childPairs allKeep (cur, DirTree.node files subdirs),
            headIsSlash p.1 = true ∧ lookupDir fs (pathSegs p.1) = some p.2 := by
          intro p' hp'
          rcases List.mem_append.mp hp' with h' | h'
          · exact hinv p' (List.mem_cons_of_mem _ h')
          · rw [childPairs_allKeep] at h'
            obtain ⟨q, hq, rfl⟩ := List.mem_map.mp h'
            exact hchild q hq
        obtain ⟨hok, hyields⟩ := ih
          (rest ++ childPairs allKeep (cur, DirTree.node files subdirs))
          (pathSegs cur) (by omega) hinv2
        refine ⟨hok, ?_⟩
        rw [hyields, walkQueue_cons, List.map_append]

/-- Whole-run form: with a clean filesystem, an absolute root resolving to
the subtree `t`, and enough fuel, the working-directory walker completes,
yields exactly the pure tree walk of `t`, and changed directory to every
yielded path in order. -/
theorem walk_local_cwd_correct (fs t : DirTree) (root : String)
    (cwd0 : List (List Char)) (fuel : Nat)
    (hfs : cleanTreeB fs = true) (habs : headIsSlash root = true)
    (hlook : lookupDir fs (pathSegs root) = some t) (hfuel : DirTree.size t ≤ fuel) :
    (walk_local_cwd fs fuel root cwd0).ok = true ∧
    (walk_local_cwd fs fuel root cwd0).yields = walk_local_tree root t ∧
    (walk_local_cwd fs fuel root cwd0).chdirs = walk_local_tree root t := by
  have hsz : sizeL [(root, t)] ≤ fuel := by
    rw [sizeL_cons]
    simp only [sizeL]
    omega
  have hinv : ∀ p ∈ [(root, t)], headIsSlash p.1 = true ∧
      lookupDir fs (pathSegs p.1) = some p.2 := by
    intro p hp
    rcases List.mem_singleton.mp hp with rfl
    exact ⟨habs, hlook⟩
  have hmain := walkLocalCwdAux_correct fs hfs fuel [(root, t)] cwd0 hsz hinv
  have hchd := walkLocalCwdAux_chdirs fs fuel [root] cwd0 (by simpa using hmain.1)
  unfold walk_local_cwd
  refine ⟨by simpa using hmain.1, ?_, ?_⟩
  · simp only [CwdRun.yields]
    have h2 := hmain.2
    simp only [List.map_cons, List.map_nil] at h2
    rw [h2]
    rfl
  · simp only [CwdRun.chdirs]
    rw [hchd]
    have h2 := hmain.2
    simp only [List.map_cons, List.map_nil] at h2
    rw [h2]
    rfl

/- ---------------------------------------------------------------- -/
/- Claims                                                            -/
/- ---------------------------------------------------------------- -/

/-- C1: evaluation of the upload engine at the failing input.  The claim
says a local file absent from the remote listing is always uploaded; the
code's upload statement sits under `if f in remote_filelist` (line 257),
so a file absent remotely is never uploaded.  The first conjunct is the
general fact; the remaining conjuncts run the whole engine on a directory
holding `a.txt` with the remote file absent, under both overwrite
settings: no store call is issued and the remote filesystem is
unchanged. -/
theorem C1_absent_file_never_uploaded :
    (∀ (ow dr : Bool) (restr : List String) (rd : String) (rl : List String)
        (acc : RemoteFS × List Action) (f : String × String),
      f.1 ∉ rl → l2r_fileStep ow dr restr rd rl acc f = acc) ∧
    recursively_copy_files_from_local_directory "/R" "/L" true false false []
        (.node [("a.txt", "hello")] []) ⟨["/R", "/R/L"], []⟩ =
      ([Action.cwdRemote "/R/L"], .ok ⟨["/R", "/R/L"], []⟩) ∧
    recursively_copy_files_from_local_directory "/R" "/L" false false false []
        (.node [("a.txt", "hello")] []) ⟨["/R", "/R/L"], []⟩ =
      ([Action.cwdRemote "/R/L"], .ok ⟨["/R", "/R/L"], []⟩) := by
  refine ⟨?_, by decide, by decide⟩
  intro ow dr restr rd rl acc f hf
  exact l2r_fileStep_absent ow dr restr rd rl acc f hf

theorem C1_witness :
    ("a.txt" ∉ ([] : List String)) ∧
    l2r_fileStep true false [] "/R/L" [] (⟨["/R", "/R/L"], []⟩, []) ("a.txt", "hello") =
      (⟨["/R", "/R/L"], []⟩, []) :=
  ⟨by decide,
   C1_absent_file_never_uploaded.1 true false [] "/R/L" []
     (⟨["/R", "/R/L"], []⟩, []) ("a.txt", "hello") (by decide)⟩

/-- C2: dry-run non-mutation and the distinct dry-run error.  With
`dry_run=true` the download engine performs no `os.makedirs`, no
retrieval and leaves the local filesystem untouched (its trace is exactly
the traversal's directory changes); the upload engine issues no `mkd` and
no store; and if the upload walk meets a mapped remote directory that
does not exist, the operation ends in the distinct
`NotImplementedError`. -/
theorem C2_dry_run_non_mutation :
    (∀ (lr rr : String) (ow vb : Bool) (restr : List String) (t : DirTree) (fs : LocalFS),
      (recursively_copy_files_from_remote_directory lr rr ow vb true restr t fs).1 = fs ∧
      ∀ a ∈ (recursively_copy_files_from_remote_directory lr rr ow vb true restr t fs).2,
        a.mutatesDest = false) ∧
    (∀ (rr lr : String) (ow vb : Bool) (restr : List String) (t : DirTree) (rfs : RemoteFS),
      ∀ a ∈ (recursively_copy_files_from_local_directory rr lr ow vb true restr t rfs).1,
        a.mutatesDest = false) ∧
    (∀ (rr lr : String) (ow vb : Bool) (restr : List String) (t : DirTree) (rfs : RemoteFS),
      (∃ d ∈ walk_local_tree lr t,
        pyReplace d lr (pjoin rr (basename lr)) ∉ rfs.dirs) →
      (recursively_copy_files_from_local_directory rr lr ow vb true restr t rfs).2 =
        .error .notImplementedError) := by
  refine ⟨?_, ?_, ?_⟩
  · intro lr rr ow vb restr t fs
    rw [r2l_dry_run_eq]
    refine ⟨rfl, ?_⟩
    intro a ha
    obtain ⟨d, _, rfl⟩ := List.mem_map.mp ha
    rfl
  · intro rr lr ow vb restr t rfs
    intro a ha
    obtain ⟨l, hl, hp⟩ := l2r_fold_dry_trace ow restr lr (pjoin rr (basename lr))
      (walkTreePairs allKeep lr t) [] rfs
    rw [recursively_copy_files_from_local_directory] at ha
    rw [hl] at ha
    rw [List.nil_append] at ha
    obtain ⟨p, rfl⟩ := hp a ha
    rfl
  · intro rr lr ow vb restr t rfs hmiss
    rw [recursively_copy_files_from_local_directory]
    apply l2r_fold_dry_missing
    obtain ⟨d, hd, hnot⟩ := hmiss
    obtain ⟨dn, hdn, rfl⟩ := List.mem_map.mp hd
    exact ⟨dn, hdn, hnot⟩

theorem C2_witness :
    (Action.cwdRemote "/r" ∈
      (recursively_copy_files_from_remote_directory "/L" "/r" false false true [] sampleT
        ⟨[], []⟩).2) ∧
    (Action.cwdRemote "/r").mutatesDest = false ∧
    (∃ d ∈ walk_local_tree "/L" (DirTree.node [("a.txt", "hello")] [("d", .node [] [])]),
      pyReplace d "/L" (pjoin "/R" (basename "/L")) ∉ (["/R", "/R/L"] : List String)) ∧
    (recursively_copy_files_from_local_directory "/R" "/L" false true true []
        (.node [("a.txt", "hello")] [("d", .node [] [])]) ⟨["/R", "/R/L"], []⟩).2 =
      .error .notImplementedError :=
  ⟨by decide,
   (C2_dry_run_non_mutation.1 "/L" "/r" false false [] sampleT ⟨[], []⟩).2
     (Action.cwdRemote "/r") (by decide),
   by decide,
   C2_dry_run_non_mutation.2.2 "/R" "/L" false true []
     (.node [("a.txt", "hello")] [("d", .node [] [])]) ⟨["/R", "/R/L"], []⟩ (by decide)⟩

/-- C3 counterexample: the claim says every public mirror or transfer
operation opens exactly one session at entry and closes it on exit.  In
the code the session is opened once in the constructor
(`__init__` calls `connect_to_remote`, line 65) and stored in `self.ftp`;
a full download run issues transport calls (its trace is non-empty) yet
contains no session-open and no session-close event, and nothing ever
closes the constructor's session. -/
theorem C3_counterexample :
    (recursively_copy_files_from_remote_directory "/L" "/r" false false false [] sampleT
        ⟨[], []⟩).2 ≠ [] ∧
    (∀ a ∈ (recursively_copy_files_from_remote_directory "/L" "/r" false false false []
        sampleT ⟨[], []⟩).2, a.isSessionEvent = false) ∧
    init_actions = [Action.sessionOpen] ∧
    Action.sessionClose ∉ init_actions := by
  refine ⟨by decide, by decide, rfl, by decide⟩

/-- C3 (amended): the session is acquired once, in the constructor, and
shared by every operation: no mirror operation, and no single-file
transfer, ever opens or closes a session, and the class never emits a
session-close at all. -/
theorem C3_session_lifetime :
    (∀ (lr rr : String) (ow vb dr : Bool) (restr : List String) (t : DirTree) (fs : LocalFS),
      ∀ a ∈ (recursively_copy_files_from_remote_directory lr rr ow vb dr restr t fs).2,
        a.isSessionEvent = false) ∧
    (∀ (rr lr : String) (ow vb dr : Bool) (restr : List String) (t : DirTree) (rfs : RemoteFS),
      ∀ a ∈ (recursively_copy_files_from_local_directory rr lr ow vb dr restr t rfs).1,
        a.isSessionEvent = false) ∧
    (∀ (lfp trd : String) (lf : List (String × String)) (rfs : RemoteFS),
      ∀ a ∈ (copy_file_to_remote_directory lfp trd lf rfs).1, a.isSessionEvent = false) ∧
    init_actions = [Action.sessionOpen] ∧
    Action.sessionClose ∉ init_actions := by
  refine ⟨?_, ?_, ?_, rfl, by decide⟩
  · intro lr rr ow vb dr restr t fs a ha
    obtain ⟨l, hl, hp⟩ := r2l_fold_trace ow dr restr rr (pjoin lr (basename rr))
      (walkTreePairs remoteKeep rr t) (fs, [])
    rw [recursively_copy_files_from_remote_directory] at ha
    rw [hl, List.nil_append] at ha
    rcases hp a ha with ⟨p, rfl⟩ | ⟨p, rfl⟩ | ⟨n, tg, rfl⟩ <;> rfl
  · intro rr lr ow vb dr restr t rfs a ha
    obtain ⟨l, hl, hp⟩ := l2r_fold_trace ow dr restr lr (pjoin rr (basename lr))
      (walkTreePairs allKeep lr t) ([], .ok rfs)
    rw [recursively_copy_files_from_local_directory] at ha
    rw [hl, List.nil_append] at ha
    rcases hp a ha with ⟨p, rfl⟩ | ⟨p, rfl⟩ | ⟨d, n, rfl⟩ <;> rfl
  · intro lfp trd lf rfs a ha
    unfold copy_file_to_remote_directory at ha
    split at ha
    · split at ha
      · rcases List.mem_cons.mp ha with h | h
        · rw [h]; rfl
        · rcases List.mem_singleton.mp h with rfl
          rfl
      · rcases List.mem_singleton.mp ha with rfl
        rfl
    · simp at ha

theorem C3_witness :
    (Action.retr "f.txt" "/L/r/f.txt" ∈
      (recursively_copy_files_from_remote_directory "/L" "/r" false false false [] sampleT
        ⟨[], []⟩).2) ∧
    (Action.retr "f.txt" "/L/r/f.txt").isSessionEvent = false :=
  ⟨by decide,
   C3_session_lifetime.1 "/L" "/r" false false false [] sampleT ⟨[], []⟩
     (Action.retr "f.txt" "/L/r/f.txt") (by decide)⟩

/-- C4: both tree walkers are complete breadth-first enumerations.  For
every finite directory tree, each walker yields the root first, yields
exactly the canonically enumerated (kept) directories — each exactly once,
as the permutation with `treeDirs` states — and every non-root element of
the output is the join of a child name onto a path that appears strictly
earlier in the output. -/
theorem C4_walkers_bfs (root : String) (t : DirTree) :
    ((walk_remote_tree root t).head? = some root ∧
      (walk_remote_tree root t).Perm ((treeDirs remoteKeep root t).map Prod.fst) ∧
      ∀ i (hi : i < (walk_remote_tree root t).length), 0 < i →
        ∃ par nm, (walk_remote_tree root t)[i] = pjoin par nm ∧
          par ∈ (walk_remote_tree root t).take i) ∧
    ((walk_local_tree root t).head? = some root ∧
      (walk_local_tree root t).Perm ((treeDirs allKeep root t).map Prod.fst) ∧
      ∀ i (hi : i < (walk_local_tree root t).length), 0 < i →
        ∃ par nm, (walk_local_tree root t)[i] = pjoin par nm ∧
          par ∈ (walk_local_tree root t).take i) := by
  refine ⟨⟨rfl, (walkTreePairs_perm remoteKeep root t).map Prod.fst, ?_⟩,
          ⟨rfl, (walkTreePairs_perm allKeep root t).map Prod.fst, ?_⟩⟩
  · intro i hi hpos
    obtain ⟨par, nm, _, hjoin, hmem⟩ := walk_parent remoteKeep root t i hi hpos
    exact ⟨par, nm, hjoin, hmem⟩
  · intro i hi hpos
    obtain ⟨par, nm, _, hjoin, hmem⟩ := walk_parent allKeep root t i hi hpos
    exact ⟨par, nm, hjoin, hmem⟩

theorem C4_witness :
    (0 < 1) ∧
    (∃ par nm, (walk_remote_tree "/r" sampleT).get ⟨1, by decide⟩ = pjoin par nm ∧
      par ∈ (walk_remote_tree "/r" sampleT).take 1) ∧
    (∃ par nm, (walk_local_tree "/r" sampleT).get ⟨2, by decide⟩ = pjoin par nm ∧
      par ∈ (walk_local_tree "/r" sampleT).take 2) :=
  ⟨by decide,
   (C4_walkers_bfs "/r" sampleT).1.2.2 1 (by decide) (by decide),
   (C4_walkers_bfs "/r" sampleT).2.2.2 2 (by decide) (by decide)⟩

/-- C5: hidden-name filtering is applied by the remote walker only.
Every non-root path the remote walker yields is the join of a child name
that does not start with a dot, and the remote walk is unchanged when
every hidden subtree is removed from the tree (it never yields such an
entry and never descends into one); the local walker, by contrast, yields
every immediate subdirectory — dotted names included — and descends into
each of them. -/
theorem C5_hidden_filter_asymmetry (root : String) (t : DirTree) :
    (∀ i (hi : i < (walk_remote_tree root t).length), 0 < i →
      ∃ par nm, startsWithDot nm = false ∧
        (walk_remote_tree root t)[i] = pjoin par nm) ∧
    walk_remote_tree root (pruneHidden t) = walk_remote_tree root t ∧
    (∀ p ∈ t.subdirsOf, pjoin root p.1 ∈ walk_local_tree root t ∧
      ∀ q ∈ p.2.subdirsOf, pjoin (pjoin root p.1) q.1 ∈ walk_local_tree root t) := by
  refine ⟨?_, walk_remote_tree_prune root t, ?_⟩
  · intro i hi hpos
    obtain ⟨par, nm, hkeep, hjoin, _⟩ := walk_parent remoteKeep root t i hi hpos
    refine ⟨par, nm, ?_, hjoin⟩
    simp only [remoteKeep, decide_eq_true_eq, Bool.not_eq_true] at hkeep
    exact hkeep
  · intro p hp
    exact walk_local_tree_mem root t p hp

theorem C5_witness :
    (∃ par nm, startsWithDot nm = false ∧
      (walk_remote_tree "/r" sampleT).get ⟨1, by decide⟩ = pjoin par nm) ∧
    pjoin "/r" ".git" ∈ walk_local_tree "/r" sampleT :=
  ⟨(C5_hidden_filter_asymmetry "/r" sampleT).1 1 (by decide) (by decide),
   ((C5_hidden_filter_asymmetry "/r" sampleT).2.2 (".git", .node [("g", "y")] [])
     (List.mem_cons_of_mem _ (List.mem_cons_self _ _))).1⟩

/-- C6: destination path mapping.  In both engines the destination used
for a walked directory `d` is `d` with every occurrence of the source
root replaced (global, unanchored Python `str.replace`) by
`join(destination_root, basename(source_root))`: the download engine's
`os.makedirs` arguments are exactly the mapped walk, the upload engine's
settled remote directories are a prefix of the mapped walk (the whole
mapped walk on a successful run), and concretely mirroring source root
`/a/b` into `/tmp/x` materialises `/tmp/x/b` and `/tmp/x/b/c`, not paths
directly under `/tmp/x`. -/
theorem C6_path_mapping :
    (∀ (lr rr : String) (ow vb : Bool) (restr : List String) (t : DirTree) (fs : LocalFS),
      makedirsPaths
          ((recursively_copy_files_from_remote_directory lr rr ow vb false restr t fs).2) =
        (walk_remote_tree rr t).map (fun d => pyReplace d rr (pjoin lr (basename rr)))) ∧
    (∀ (rr lr : String) (ow vb dr : Bool) (restr : List String) (t : DirTree) (rfs : RemoteFS),
      (∃ k, remoteDirsUsed
          ((recursively_copy_files_from_local_directory rr lr ow vb dr restr t rfs).1) =
        ((walk_local_tree lr t).map
          (fun d => pyReplace d lr (pjoin rr (basename lr)))).take k) ∧
      (∀ rfs', (recursively_copy_files_from_local_directory rr lr ow vb dr restr t rfs).2 =
          .ok rfs' →
        remoteDirsUsed
            ((recursively_copy_files_from_local_directory rr lr ow vb dr restr t rfs).1) =
          (walk_local_tree lr t).map
            (fun d => pyReplace d lr (pjoin rr (basename lr))))) ∧
    makedirsPaths ((recursively_copy_files_from_remote_directory "/tmp/x" "/a/b"
        false false false [] (.node [] [("c", .node [] [])]) ⟨[], []⟩).2) =
      ["/tmp/x/b", "/tmp/x/b/c"] := by
  refine ⟨?_, ?_, by decide⟩
  · intro lr rr ow vb restr t fs
    rw [recursively_copy_files_from_remote_directory]
    rw [r2l_fold_makedirsPaths ow restr rr (pjoin lr (basename rr))
      (walkTreePairs remoteKeep rr t) (fs, [])]
    rw [walk_remote_tree, List.map_map]
    rfl
  · intro rr lr ow vb dr restr t rfs
    obtain ⟨k, hk, hok⟩ := l2r_fold_dirsUsed ow dr restr lr (pjoin rr (basename lr))
      (walkTreePairs allKeep lr t) [] rfs
    have hmaps : (walkTreePairs allKeep lr t).map
        (fun dn => pyReplace dn.1 lr (pjoin rr (basename lr))) =
        (walk_local_tree lr t).map
          (fun d => pyReplace d lr (pjoin rr (basename lr))) := by
      rw [walk_local_tree, List.map_map]
      rfl
    constructor
    · refine ⟨k, ?_⟩
      rw [recursively_copy_files_from_local_directory, hk, hmaps]
      rfl
    · intro rfs' hres
      rw [recursively_copy_files_from_local_directory] at hres ⊢
      rw [hk, hok rfs' hres, hmaps]
      rfl

theorem C6_witness :
    (recursively_copy_files_from_local_directory "/R" "/L" true false false []
        (.node [("a.txt", "hello")] []) ⟨["/R", "/R/L"], []⟩).2 =
      .ok ⟨["/R", "/R/L"], []⟩ ∧
    remoteDirsUsed ((recursively_copy_files_from_local_directory "/R" "/L" true false false []
        (.node [("a.txt", "hello")] []) ⟨["/R", "/R/L"], []⟩).1) =
      (walk_local_tree "/L" (.node [("a.txt", "hello")] [])).map
        (fun d => pyReplace d "/L" (pjoin "/R" (basename "/L"))) :=
  ⟨by decide,
   (C6_path_mapping.2.1 "/R" "/L" true false false [] (.node [("a.txt", "hello")] [])
     ⟨["/R", "/R/L"], []⟩).2 ⟨["/R", "/R/L"], []⟩ (by decide)⟩

/-- C7 counterexample: the claim says that with `overwrite_local_file=true`
the retrieve call is always invoked for every non-hidden remote file.
With `filetype_restrictions = ["csv"]` the non-hidden file `a.txt` fails
the extension test and is not retrieved even though overwriting is on and
the target does not exist: the run's trace holds no retrieve call. -/
theorem C7_counterexample :
    (recursively_copy_files_from_remote_directory "/L" "/R" true false false ["csv"]
        (.node [("a.txt", "x")] []) ⟨[], []⟩).2 =
      [Action.makedirs "/L/R", Action.cwdRemote "/R"] := by
  decide

/-- C7 (amended): download overwrite gating, qualified by the extension
filter.  If the local target exists and `overwrite_local_file=false`,
the step is skipped before anything else is considered — the retrieve is
never invoked for that file, whatever the restrictions; if
`overwrite_local_file=true` and the file is non-hidden and passes the
filetype restriction (or the restriction list is empty), the retrieve is
invoked regardless of whether the target exists. -/
theorem C7_download_overwrite_gating :
    (∀ (dr : Bool) (restr : List String) (ld : String) (acc : LocalFS × List Action)
        (f : String × String),
      acc.1.pathExists (pjoin ld f.1) →
      copyFileStep false dr restr ld acc f = acc) ∧
    (∀ (restr : List String) (ld : String) (acc : LocalFS × List Action)
        (f : String × String),
      startsWithDot f.1 = false →
      (lastSplitDot (pjoin ld f.1) ∈ restr ∨ restr = []) →
      copyFileStep true false restr ld acc f =
        (acc.1.writeFile (pjoin ld f.1) f.2,
         acc.2 ++ [Action.retr f.1 (pjoin ld f.1)])) := by
  refine ⟨?_, ?_⟩
  · intro dr restr ld acc f hex
    exact copyFileStep_skip_existing dr restr ld acc f hex
  · intro restr ld acc f hdot hel
    exact copyFileStep_retr true restr ld acc f hdot (Or.inl rfl) hel

theorem C7_witness :
    (LocalFS.pathExists ⟨[], [("/L/a.txt", "old")]⟩ (pjoin "/L" "a.txt") ∧
      copyFileStep false false [] "/L" (⟨[], [("/L/a.txt", "old")]⟩, []) ("a.txt", "new") =
        (⟨[], [("/L/a.txt", "old")]⟩, [])) ∧
    (startsWithDot "a.txt" = false ∧
      (lastSplitDot (pjoin "/L" "a.txt") ∈ (["txt"] : List String) ∨ (["txt"] : List String) = []) ∧
      copyFileStep true false ["txt"] "/L" (⟨[], [("/L/a.txt", "old")]⟩, []) ("a.txt", "new") =
        ((LocalFS.writeFile ⟨[], [("/L/a.txt", "old")]⟩ (pjoin "/L" "a.txt") "new"),
         [Action.retr "a.txt" (pjoin "/L" "a.txt")])) :=
  ⟨⟨by decide,
    C7_download_overwrite_gating.1 false [] "/L" (⟨[], [("/L/a.txt", "old")]⟩, [])
      ("a.txt", "new") (by decide)⟩,
   ⟨by decide, by decide,
    C7_download_overwrite_gating.2 ["txt"] "/L" (⟨[], [("/L/a.txt", "old")]⟩, [])
      ("a.txt", "new") (by decide) (by decide)⟩⟩

/-- C8: remote-to-local mirroring is idempotent with overwriting off.
Running the download engine twice with the same arguments,
`overwrite_local_file=false` and no dry run, against the same remote
tree leaves the local filesystem after the second run exactly as it was
after the first: the second run creates nothing and rewrites nothing. -/
theorem C8_download_idempotent (lr rr : String) (vb : Bool) (restr : List String)
    (t : DirTree) (fs : LocalFS) :
    (recursively_copy_files_from_remote_directory lr rr false vb false restr t
      (recursively_copy_files_from_remote_directory lr rr false vb false restr t fs).1).1 =
    (recursively_copy_files_from_remote_directory lr rr false vb false restr t fs).1 := by
  simp only [recursively_copy_files_from_remote_directory]
  apply r2l_fold_noop
  intro dn hdn
  exact r2l_fold_post restr rr (pjoin lr (basename rr))
    (walkTreePairs remoteKeep rr t) (fs, []) dn hdn

/-- C9: download eligibility is decided on the full local destination
path's last dot-split segment, not on the file name.  A file step emits a
retrieve only when `lastSplitDot` of the full target path passes the
restriction test; a path with no dot is its own tested "extension"; for a
dotless file name joined onto a directory path, the tested string is the
directory path's own last dot-segment with the file name fused on.  The
two concrete runs copy or skip the same dotless file `data`, under the
same restrictions, depending only on the dots of the destination path. -/
theorem C9_extension_from_full_path :
    (∀ (ow : Bool) (restr : List String) (ld : String) (acc : LocalFS × List Action)
        (f : String × String),
      (copyFileStep ow false restr ld acc f).2 ≠ acc.2 →
      (lastSplitDot (pjoin ld f.1) ∈ restr ∨ restr = [])) ∧
    (∀ s : String, '.' ∉ s.data → lastSplitDot s = s) ∧
    (∀ D n : String, '.' ∉ n.data → headIsSlash n = false → (D = "" → False) →
      lastIsSlash D = false →
      lastSplitDot (pjoin D n) = lastSplitDot D ++ "/" ++ n) ∧
    (recursively_copy_files_from_remote_directory "/L" "/r.csv" false false false
        ["csv/data"] (.node [("data", "c")] []) ⟨[], []⟩).2 =
      [Action.makedirs "/L/r.csv", Action.cwdRemote "/r.csv",
       Action.retr "data" "/L/r.csv/data"] ∧
    (recursively_copy_files_from_remote_directory "/L" "/r" false false false
        ["csv/data"] (.node [("data", "c")] []) ⟨[], []⟩).2 =
      [Action.makedirs "/L/r", Action.cwdRemote "/r"] := by
  refine ⟨?_, ?_, ?_, by decide, by decide⟩
  · intro ow restr ld acc f hne
    by_contra hel
    rw [copyFileStep_ineligible ow false restr ld acc f hel] at hne
    exact hne rfl
  · intro s h
    exact lastSplitDot_no_dot s h
  · intro D n h1 h2 h3 h4
    exact lastSplitDot_dotless_join D n h1 h2 h3 h4

theorem C9_witness :
    ((copyFileStep false false ["csv/data"] "/L/r.csv" (⟨[], []⟩, [])
        ("data", "c")).2 ≠ ([] : List Action) ∧
      (lastSplitDot (pjoin "/L/r.csv" "data") ∈ (["csv/data"] : List String) ∨
        (["csv/data"] : List String) = [])) ∧
    lastSplitDot "/L/r/data" = "/L/r/data" ∧
    lastSplitDot (pjoin "/L.csv" "data") = lastSplitDot "/L.csv" ++ "/" ++ "data" :=
  ⟨⟨by decide,
    C9_extension_from_full_path.1 false ["csv/data"] "/L/r.csv" (⟨[], []⟩, [])
      ("data", "c") (by decide)⟩,
   C9_extension_from_full_path.2.1 "/L/r/data" (by decide),
   C9_extension_from_full_path.2.2.1 "/L.csv" "data" (by decide) (by decide)
     (by decide) (by decide)⟩

/-- C10: the working-directory side effects of `walk_local_tree`.  Every
completed walk called `os.chdir` on exactly the visited directories in
yield order; it leaves the process working directory resolved at the last
visited directory; with a well-formed filesystem and an absolute root the
walk completes and visits exactly what the pure tree walk visits; and
with the relative root `.` the walk fails while listing the depth-one
directory, so the depth-two directory `./b/c` — which the tree walk does
visit — is never visited. -/
theorem C10_local_walk_cwd_effects :
    (∀ (fs : DirTree) (fuel : Nat) (root : String) (cwd0 : List (List Char)),
      (walk_local_cwd fs fuel root cwd0).ok = true →
      (walk_local_cwd fs fuel root cwd0).chdirs =
        (walk_local_cwd fs fuel root cwd0).yields) ∧
    (∀ (fs : DirTree) (fuel : Nat) (root : String) (cwd0 : List (List Char))
        (l : List String) (x : String),
      (walk_local_cwd fs fuel root cwd0).ok = true →
      (walk_local_cwd fs fuel root cwd0).chdirs = l ++ [x] →
      headIsSlash x = true →
      (walk_local_cwd fs fuel root cwd0).cwd = pathSegs x) ∧
    (∀ (fs t : DirTree) (root : String) (cwd0 : List (List Char)) (fuel : Nat),
      cleanTreeB fs = true → headIsSlash root = true →
      lookupDir fs (pathSegs root) = some t → DirTree.size t ≤ fuel →
      (walk_local_cwd fs fuel root cwd0).ok = true ∧
      (walk_local_cwd fs fuel root cwd0).yields = walk_local_tree root t ∧
      (walk_local_cwd fs fuel root cwd0).chdirs = walk_local_tree root t) ∧
    ((walk_local_cwd osFS 10 "." [['W']]).ok = false ∧
      "./b/c" ∉ (walk_local_cwd osFS 10 "." [['W']]).yields ∧
      "./b/c" ∈ walk_local_tree "."
        (.node [("f.txt", "x")] [("b", .node [] [("c", .node [] [])])])) := by
  refine ⟨?_, ?_, ?_, by decide, by decide, by decide⟩
  · intro fs fuel root cwd0 hok
    simp only [walk_local_cwd] at hok ⊢
    rw [walkLocalCwdAux_chdirs fs fuel [root] cwd0 hok]
    rfl
  · intro fs fuel root cwd0 l x hok hch habs
    simp only [walk_local_cwd] at hok hch ⊢
    rw [walkLocalCwdAux_cwd fs fuel [root] cwd0 hok, hch,
      foldl_resolve_last_abs x habs l cwd0]
  · intro fs t root cwd0 fuel h1 h2 h3 h4
    exact walk_local_cwd_correct fs t root cwd0 fuel h1 h2 h3 h4

theorem C10_witness :
    ((walk_local_cwd osFS 10 "/W" [['W']]).ok = true ∧
      (walk_local_cwd osFS 10 "/W" [['W']]).yields =
        walk_local_tree "/W" (.node [("f.txt", "x")] [("b", .node [] [("c", .node [] [])])]) ∧
      (walk_local_cwd osFS 10 "/W" [['W']]).chdirs =
        walk_local_tree "/W" (.node [("f.txt", "x")] [("b", .node [] [("c", .node [] [])])])) ∧
    (walk_local_cwd osFS 10 "/W" [['W']]).chdirs =
      (walk_local_cwd osFS 10 "/W" [['W']]).yields ∧
    (walk_local_cwd osFS 10 "/W" [['W']]).cwd = pathSegs "/W/b/c" :=
  ⟨C10_local_walk_cwd_effects.2.2.1 osFS
      (.node [("f.txt", "x")] [("b", .node [] [("c", .node [] [])])]) "/W" [['W']] 10
      (by decide) (by decide) (by rfl) (by decide),
   C10_local_walk_cwd_effects.1 osFS 10 "/W" [['W']] (by decide),
   C10_local_walk_cwd_effects.2.1 osFS 10 "/W" [['W']] ["/W", "/W/b"] "/W/b/c"
     (by decide) (by decide) (by decide)⟩

end FTPDE
